import Mathlib

/-!
Verification of a minimal reverse-mode automatic differentiation engine
(source: src/tmp.py).

The Python program manipulates a graph of mutable `Node` objects compared by
reference identity.  We embed it shallowly as an arena ("heap"): a list of
node records indexed by natural numbers, where a node reference is its index.
Numbers are carried as rationals; arithmetic comes in two readings: the exact
one (`forward`, `eval`), an idealization adequate wherever no rounding can
occur, and the binary64 one (`fl`, `forwardF`, `evalF`), which rounds every
machine operation to the nearest representable number with ties to even as
Python's IEEE-754 doubles do and decides the rounding-sensitive worked
example.  Python exceptions are `Except`, and the unbounded recursion of
`eval` and `build_topo` is made total with an explicit fuel parameter (running
out of fuel is its own error, distinct from every error the program raises).
Nodes are allocated by appending to the heap, so an index is created after the
indices it references: this is exactly the construction discipline the
specification describes ("inputs always precede their consumer both temporally
and topologically"), captured below by the predicate `orderedB`.
-/

namespace Autodiff

/-- The four operator variants (`AddOp`, `SubOp`, `MulOp`, `DivOp`). -/
inductive Op where
  | add
  | sub
  | mul
  | div
deriving DecidableEq, Repr

/-- One `Node` record: `inputs`, `op`, `value` as in `Node.__init__`. -/
structure NodeData where
  inputs : List Nat
  op : Option Op
  value : Option ℚ
deriving DecidableEq, Repr

/-- The arena of all allocated nodes; a node reference is an index into it. -/
abbrev Heap := List NodeData

/-- `Node.__init__`: allocate a node with the given fields (no checks of any
kind are performed, mirroring the source constructor). -/
def mkNode (h : Heap) (inputs : List Nat) (op : Option Op) (value : Option ℚ) : Heap × Nat :=
  (h ++ [⟨inputs, op, value⟩], h.length)

/-- `Node([], None, value=v)`: a leaf node holding a value. -/
def leaf (h : Heap) (v : ℚ) : Heap × Nat :=
  mkNode h [] none (some v)

/-- `AddOp/SubOp/MulOp/DivOp.__call__`: a binary application node. -/
def applyOp (h : Heap) (op : Op) (a b : Nat) : Heap × Nat :=
  mkNode h [a, b] (some op) none

/-- The `inputs` field of node `i` (an absent index reads as no inputs). -/
def inputsOf (h : Heap) (i : Nat) : List Nat :=
  match h[i]? with
  | some nd => nd.inputs
  | none => []

/-- The `op` field of node `i`. -/
def opOf (h : Heap) (i : Nat) : Option Op :=
  match h[i]? with
  | some nd => nd.op
  | none => none

/-- The `value` field of node `i`. -/
def valueOf (h : Heap) (i : Nat) : Option ℚ :=
  match h[i]? with
  | some nd => nd.value
  | none => none

/-- The memoization write `self.value = ...` of `Node.eval`. -/
def setVal (h : Heap) (i : Nat) (v : ℚ) : Heap :=
  match h[i]? with
  | some nd => h.set i { nd with value := some v }
  | none => h

/-- Errors of the forward pass.  `.disconnected` is the
`ValueError("Node is not connected to an operation.")` of `Node.eval`,
`.divZero` is Python's `ZeroDivisionError`, `.indexErr` is Python's
`IndexError` on a too-short input list, `.badIndex` is a dangling reference
(impossible in Python) and `.fuel` is exhaustion of the modelling fuel. -/
inductive EvalErr where
  | fuel
  | badIndex
  | disconnected
  | divZero
  | indexErr
deriving DecidableEq, Repr

/-- The `forward` rule of each operator: `inputs[0] op inputs[1]` on the list
of evaluated input values (extra values are ignored, missing ones raise). -/
def forward (op : Op) (vs : List ℚ) : Except EvalErr ℚ :=
  match vs with
  | x :: y :: _ =>
    match op with
    | .add => .ok (x + y)
    | .sub => .ok (x - y)
    | .mul => .ok (x * y)
    | .div => if y = 0 then .error .divZero else .ok (x / y)
  | _ => .error .indexErr

/-- The list comprehension `[input_node.eval() for input_node in self.inputs]`:
evaluate a list of nodes left to right, threading the (mutating) heap. -/
def evalL (ev : Heap → Nat → Except EvalErr (Heap × ℚ)) :
    Heap → List Nat → Except EvalErr (Heap × List ℚ)
  | h, [] => .ok (h, [])
  | h, j :: js =>
    match ev h j with
    | .error e => .error e
    | .ok (h', v) =>
      match evalL ev h' js with
      | .error e => .error e
      | .ok (h'', vs) => .ok (h'', v :: vs)

/-- `Node.eval`: return the cached value if present; otherwise evaluate all
inputs, then fail if `op` is absent, otherwise apply the forward rule and
memoize the result.  The fuel only bounds recursion depth. -/
def eval : Nat → Heap → Nat → Except EvalErr (Heap × ℚ)
  | 0, _, _ => .error .fuel
  | fuel + 1, h, i =>
    match h[i]? with
    | none => .error .badIndex
    | some nd =>
      match nd.value with
      | some v => .ok (h, v)
      | none =>
        match evalL (eval fuel) h nd.inputs with
        | .error e => .error e
        | .ok (h', vs) =>
          match nd.op with
          | none => .error .disconnected
          | some op =>
            match forward op vs with
            | .error e => .error e
            | .ok v => .ok (setVal h' i v, v)

/-- The value computed by `eval`, with the resulting heap discarded. -/
def evalVal (fuel : Nat) (h : Heap) (i : Nat) : Except EvalErr ℚ :=
  (eval fuel h i).map (fun p => p.2)

/-- Errors of `gradients`.  `.keyError` is Python's `KeyError` on the
`grads[node]` dictionary lookup, `.indexErr` is an `IndexError` inside a
backward rule, `.fuel` is exhaustion of the modelling fuel. -/
inductive GErr where
  | fuel
  | keyError
  | indexErr
deriving DecidableEq, Repr

/-- Lookup in the `grads` dictionary (keyed by node identity = index). -/
def lookupG : List (Nat × Nat) → Nat → Option Nat
  | [], _ => none
  | (k, v) :: rest, i => if k = i then some v else lookupG rest i

/-- Insert-or-update in the `grads` dictionary. -/
def updateG : List (Nat × Nat) → Nat → Nat → List (Nat × Nat)
  | [], k, v => [(k, v)]
  | (k', v') :: rest, k, v =>
    if k' = k then (k, v) :: rest else (k', v') :: updateG rest k v

/-- The `backward` rule of each operator, building new gradient nodes in the
heap exactly in the source's allocation order:
`AddOp`: `[out_grad, out_grad]`;
`SubOp`: `[out_grad, Node(-1) * out_grad]`;
`MulOp`: `[inputs[1] * out_grad, inputs[0] * out_grad]`;
`DivOp`: `[out_grad * (Node(1) / inputs[1]),
           out_grad * (Node(-1) * inputs[0] / (inputs[1] * inputs[1]))]`. -/
def backward (h : Heap) (op : Op) (g : Nat) (i : Nat) : Except GErr (Heap × List Nat) :=
  match op with
  | .add => .ok (h, [g, g])
  | .sub =>
    let (h1, m) := leaf h (-1)
    let (h2, p) := applyOp h1 .mul m g
    .ok (h2, [g, p])
  | .mul =>
    match (inputsOf h i)[0]?, (inputsOf h i)[1]? with
    | some a, some b =>
      let (h1, p1) := applyOp h .mul b g
      let (h2, p2) := applyOp h1 .mul a g
      .ok (h2, [p1, p2])
    | _, _ => .error .indexErr
  | .div =>
    match (inputsOf h i)[0]?, (inputsOf h i)[1]? with
    | some a, some b =>
      let (h1, one) := leaf h 1
      let (h2, q) := applyOp h1 .div one b
      let (h3, t1) := applyOp h2 .mul g q
      let (h4, neg) := leaf h3 (-1)
      let (h5, m1) := applyOp h4 .mul neg a
      let (h6, sq) := applyOp h5 .mul b b
      let (h7, d) := applyOp h6 .div m1 sq
      let (h8, t2) := applyOp h7 .mul g d
      .ok (h8, [t1, t2])
    | _, _ => .error .indexErr

/-- The inner loop of `build_topo` over a node's inputs, in order. -/
def buildTopoL (bt : Nat → List Nat × List Nat → Option (List Nat × List Nat)) :
    List Nat → List Nat × List Nat → Option (List Nat × List Nat)
  | [], st => some st
  | j :: js, st =>
    match bt j st with
    | none => none
    | some st' => buildTopoL bt js st'

/-- `build_topo`: depth-first post-order traversal with an identity-keyed
visited set; a node is appended to the topological order after its inputs. -/
def buildTopo (h : Heap) : Nat → Nat → List Nat × List Nat → Option (List Nat × List Nat)
  | 0, _, _ => none
  | fuel + 1, i, (vis, topo) =>
    if i ∈ vis then some (vis, topo)
    else
      match buildTopoL (buildTopo h fuel) (inputsOf h i) (i :: vis, topo) with
      | none => none
      | some (vis', topo') => some (vis', topo' ++ [i])

/-- The accumulation loop `for inp, in_grad in zip(node.inputs, in_grads)`:
an existing entry is replaced by a fresh Add node of old and new, a missing
one is inserted directly. -/
def accumulate (h : Heap) (grads : List (Nat × Nat)) :
    List (Nat × Nat) → Heap × List (Nat × Nat)
  | [] => (h, grads)
  | (inp, g) :: rest =>
    match lookupG grads inp with
    | some old =>
      let (h', s) := applyOp h .add old g
      accumulate h' (updateG grads inp s) rest
    | none => accumulate h (updateG grads inp g) rest

/-- The reverse walk `for node in reversed(topo_order)`: skip nodes without an
operator; otherwise fetch the accumulated gradient (KeyError if absent), run
the backward rule and accumulate the per-input contributions. -/
def revWalk : Heap → List (Nat × Nat) → List Nat → Except GErr (Heap × List (Nat × Nat))
  | h, grads, [] => .ok (h, grads)
  | h, grads, n :: rest =>
    match opOf h n with
    | none => revWalk h grads rest
    | some op =>
      match lookupG grads n with
      | none => .error .keyError
      | some g =>
        match backward h op g n with
        | .error e => .error e
        | .ok (h2, inGrads) =>
          let (h3, grads2) := accumulate h2 grads ((inputsOf h2 n).zip inGrads)
          revWalk h3 grads2 rest

/-- The return line `[grads.get(inp, Node([], None, value=0)) for inp in
input_nodes]`: the zero-leaf default is allocated for every element, used only
when the lookup misses. -/
def collectWrt : Heap → List (Nat × Nat) → List Nat → Heap × List Nat
  | h, _, [] => (h, [])
  | h, grads, i :: rest =>
    let (h1, z) := leaf h 0
    let g := (lookupG grads i).getD z
    let (h2, gs) := collectWrt h1 grads rest
    (h2, g :: gs)

/-- `gradients(output_node, input_nodes)`: seed the gradient mapping with a
fresh one-leaf for the output, build the topological order, walk it in
reverse accumulating gradients, and collect the requested entries. -/
def gradients (fuel : Nat) (h : Heap) (out : Nat) (wrt : List Nat) :
    Except GErr (Heap × List Nat) :=
  let (h1, seed) := leaf h 1
  match buildTopo h1 fuel out ([], []) with
  | none => .error .fuel
  | some (_, topo) =>
    match revWalk h1 [(out, seed)] topo.reverse with
    | .error e => .error e
    | .ok (h2, grads) => .ok (collectWrt h2 grads wrt)

/-- Harness for stating claims: run `gradients` and evaluate every returned
gradient node in the resulting heap (as the demonstration entry point does). -/
def gradEval (fuelG fuelE : Nat) (h : Heap) (out : Nat) (wrt : List Nat) :
    Except GErr (List (Except EvalErr ℚ)) :=
  match gradients fuelG h out wrt with
  | .error e => .error e
  | .ok (h', gs) => .ok (gs.map (evalVal fuelE h'))

/-- Heap extension: `h'` is `h` with zero or more nodes appended.  Every heap
operation of the program either reads, memoizes in place, or appends. -/
def HExt (h h' : Heap) : Prop := ∃ t, h' = h ++ t

/-- Construction-order discipline: every input reference of a node in range
is strictly smaller than the node's own index.  This is how the acyclicity
of every graph the program can build is reflected in the arena model. -/
@[reducible]
def orderedB (h : Heap) : Prop :=
  ∀ i < h.length, ∀ j ∈ inputsOf h i, j < i

/-- The specification's construction invariants: a node without an operator
has no inputs, and a node with an operator has exactly two inputs (the arity
of all four operators). -/
@[reducible]
def wfB (h : Heap) : Prop :=
  ∀ i < h.length,
    (opOf h i = none → inputsOf h i = []) ∧
    (opOf h i ≠ none → (inputsOf h i).length = 2)

/-- Well-formedness for evaluation: every node has an operator or a cached
value (no "disconnected" node). -/
def wfE (h : Heap) : Prop :=
  ∀ j < h.length, opOf h j ≠ none ∨ valueOf h j ≠ none

/-- Reachability along input edges (reflexive-transitive). -/
inductive Reaches (h : Heap) : Nat → Nat → Prop
  | refl (i : Nat) : Reaches h i i
  | step {i j k : Nat} : j ∈ inputsOf h i → Reaches h j k → Reaches h i k

/-- `x` occurs strictly before `y` in the list `l`. -/
def Before (l : List Nat) (x y : Nat) : Prop :=
  ∃ m n : Nat, m < n ∧ l[m]? = some x ∧ l[n]? = some y

/-- What a successful `eval` can do to the heap: nothing but filling in
absent `value` fields of existing nodes. -/
def EvPres (h h' : Heap) : Prop :=
  h'.length = h.length ∧
  (∀ j, inputsOf h' j = inputsOf h j) ∧
  (∀ j, opOf h' j = opOf h j) ∧
  (∀ j w, valueOf h j = some w → valueOf h' j = some w)

/-- Invariant of the DFS state `(vis, topo)`: the topological order is
duplicate-free, contained in the visited set, and lists inputs before their
consumer. -/
structure DfsInv (h : Heap) (vis topo : List Nat) : Prop where
  sub : ∀ k ∈ topo, k ∈ vis
  nodup : topo.Nodup
  ord : ∀ l1 c l2, topo = l1 ++ c :: l2 → ∀ j ∈ inputsOf h c, j ∈ l1

/-- Precondition of a `buildTopo` call on node `i`: the invariant, and every
pending node (visited but not yet appended) has index above `i`. -/
structure DfsPre (h : Heap) (i : Nat) (vis topo : List Nat) : Prop where
  inv : DfsInv h vis topo
  pend : ∀ k ∈ vis, k ∉ topo → i < k

/-- Postcondition of a successful `buildTopo` call on node `i`. -/
structure DfsPost (h : Heap) (i : Nat) (vis topo vis' topo' : List Nat) : Prop where
  ext : ∃ d, topo' = topo ++ d
  inv : DfsInv h vis' topo'
  visMono : ∀ k ∈ vis, k ∈ vis'
  pendEq : ∀ k ∈ vis', k ∉ topo' → k ∈ vis ∧ k ∉ topo
  mem : i ∈ topo'
  reach : ∀ k ∈ topo', k ∈ topo ∨ Reaches h i k
  complete : ∀ k, Reaches h i k → k ∈ topo'
  consumer : ∀ k ∈ topo', k ∈ topo ∨ k = i ∨ ∃ c, k ∈ inputsOf h c ∧ Before topo' k c

/-- Precondition of a `buildTopoL` call on the input list `l`. -/
structure DfsPreL (h : Heap) (l : List Nat) (vis topo : List Nat) : Prop where
  inv : DfsInv h vis topo
  pend : ∀ k ∈ vis, k ∉ topo → ∀ j ∈ l, j < k

/-- Postcondition of a successful `buildTopoL` call on the input list `l`. -/
structure DfsPostL (h : Heap) (l : List Nat) (vis topo vis' topo' : List Nat) : Prop where
  ext : ∃ d, topo' = topo ++ d
  inv : DfsInv h vis' topo'
  visMono : ∀ k ∈ vis, k ∈ vis'
  pendEq : ∀ k ∈ vis', k ∉ topo' → k ∈ vis ∧ k ∉ topo
  mem : ∀ j ∈ l, j ∈ topo'
  reach : ∀ k ∈ topo', k ∈ topo ∨ ∃ j ∈ l, Reaches h j k
  complete : ∀ j ∈ l, ∀ k, Reaches h j k → k ∈ topo'
  consumer : ∀ k ∈ topo', k ∈ topo ∨ k ∈ l ∨ ∃ c, k ∈ inputsOf h c ∧ Before topo' k c

/-- The diamond graph `d = (a+b) * (a+b)` with leaves `a = x`, `b = y`.
Python evaluates `(a+b)` twice, so the two Add nodes are distinct objects;
the leaves `a`, `b` are shared by both.  Node ids: `a = 0`, `b = 1`, the two
sums `2` and `3`, the product `d = 4`. -/
def diamond (x y : ℚ) : Heap × Nat :=
  let (h1, a) := leaf [] x
  let (h2, b) := leaf h1 y
  let (h3, s1) := applyOp h2 .add a b
  let (h4, s2) := applyOp h3 .add a b
  applyOp h4 .mul s1 s2

/-- Two leaves `a = x`, `b = y` combined by a single operator node (id 2). -/
def twoLeaf (x y : ℚ) (op : Op) : Heap × Nat :=
  let (h1, a) := leaf [] x
  let (h2, b) := leaf h1 y
  applyOp h2 op a b

/-- An acyclic graph violating the construction invariants: node 0 has an
operator but no inputs, node 1 has an input but no operator.  Buildable in
Python as `x = Node([], addOp); out = Node([x], None, value=5)`. -/
def c5bad : Heap :=
  [⟨[], some .add, none⟩, ⟨[0], none, some 5⟩]

/-- Three value leaves, used to apply Add to three inputs. -/
def c8leaves : Heap :=
  [⟨[], none, some 1⟩, ⟨[], none, some 2⟩, ⟨[], none, some 3⟩]

/-- A tiny well-formed graph (5 * 5) for witnesses. -/
def wheap : Heap :=
  [⟨[], none, some 5⟩, ⟨[0, 0], some .mul, none⟩]

/-- A heap for the backward-rule witness: values 5, 7, a product node, and a
value 11 playing the incoming gradient. -/
def bheap : Heap :=
  [⟨[], none, some 5⟩, ⟨[], none, some 7⟩, ⟨[0, 1], some .mul, none⟩, ⟨[], none, some 11⟩]

/-- A single value leaf. -/
def lheap : Heap :=
  [⟨[], none, some 5⟩]

/-- The heap `wheap` after evaluating its product node. -/
def wheapM : Heap :=
  [⟨[], none, some 5⟩, ⟨[0, 0], some .mul, some (5 * 5)⟩]

/-!
The exact-rational model above idealizes Python's `float`: differently
associated computations that agree as rationals agree in it.  The program,
however, computes with IEEE-754 binary64 numbers, and the specification's
worked example states equalities between differently associated float
computations, whose truth is rounding-sensitive.  The definitions below model
binary64 arithmetic faithfully for that example: an IEEE basic operation
(`+`, `-`, `*`, `/`) returns the exact rational result rounded to the nearest
representable number with ties to even.  `fl` implements that rounding for
nonzero results in the normal, non-overflowing range (the only range arising
here); every Python-side intermediate of the example — including the exact
small-integer arithmetic Python performs on `int` operands — is a value `fl`
fixes, so the model and the program agree step by step. -/

theorem lt_of_get?_some {α : Type} {l : List α} {i : Nat} {x : α} (h : l[i]? = some x) :
    i < l.length := by
  by_contra hc
  rw [List.getElem?_eq_none (Nat.le_of_not_lt hc)] at h
  exact Option.noConfusion h

theorem valueOf_some_iff {h : Heap} {i : Nat} {v : ℚ} :
    valueOf h i = some v ↔ ∃ nd, h[i]? = some nd ∧ nd.value = some v := by
  unfold valueOf
  cases hh : h[i]? with
  | none => simp
  | some nd => simp

theorem length_setVal (h : Heap) (i : Nat) (v : ℚ) : (setVal h i v).length = h.length := by
  unfold setVal
  cases h[i]? with
  | none => rfl
  | some nd => exact List.length_set h i _

theorem getElem?_setVal_ne (h : Heap) {i j : Nat} (v : ℚ) (hij : j ≠ i) :
    (setVal h i v)[j]? = h[j]? := by
  unfold setVal
  cases h[i]? with
  | none => rfl
  | some nd => exact List.getElem?_set_ne (Ne.symm hij)

theorem valueOf_setVal_self {h : Heap} {i : Nat} {nd : NodeData} (v : ℚ)
    (hi : h[i]? = some nd) : valueOf (setVal h i v) i = some v := by
  unfold setVal valueOf
  rw [hi, List.getElem?_set_self (lt_of_get?_some hi)]

theorem inputsOf_setVal (h : Heap) (i j : Nat) (v : ℚ) :
    inputsOf (setVal h i v) j = inputsOf h j := by
  unfold setVal
  cases hi : h[i]? with
  | none => rfl
  | some nd =>
    unfold inputsOf
    by_cases hij : j = i
    · subst hij
      rw [List.getElem?_set_self (lt_of_get?_some hi), hi]
    · rw [List.getElem?_set_ne (Ne.symm hij)]

theorem opOf_setVal (h : Heap) (i j : Nat) (v : ℚ) :
    opOf (setVal h i v) j = opOf h j := by
  unfold setVal
  cases hi : h[i]? with
  | none => rfl
  | some nd =>
    unfold opOf
    by_cases hij : j = i
    · subst hij
      rw [List.getElem?_set_self (lt_of_get?_some hi), hi]
    · rw [List.getElem?_set_ne (Ne.symm hij)]

theorem evPres_refl (h : Heap) : EvPres h h :=
  ⟨rfl, fun _ => rfl, fun _ => rfl, fun _ _ hw => hw⟩

theorem evPres_trans {a b c : Heap} (hab : EvPres a b) (hbc : EvPres b c) : EvPres a c :=
  ⟨hbc.1.trans hab.1,
   fun j => (hbc.2.1 j).trans (hab.2.1 j),
   fun j => (hbc.2.2.1 j).trans (hab.2.2.1 j),
   fun j w hw => hbc.2.2.2 j w (hab.2.2.2 j w hw)⟩

theorem eval_cached {h : Heap} {i : Nat} {v : ℚ} (fuel : Nat)
    (hv : valueOf h i = some v) : eval (fuel + 1) h i = .ok (h, v) := by
  obtain ⟨nd, hh, hnd⟩ := valueOf_some_iff.mp hv
  simp [eval, hh, hnd]

theorem evalL_pres {ev : Heap → Nat → Except EvalErr (Heap × ℚ)}
    (hev : ∀ h j h' v, ev h j = .ok (h', v) → EvPres h h') :
    ∀ (l : List Nat) (h h' : Heap) (vs : List ℚ),
      evalL ev h l = .ok (h', vs) → EvPres h h' := by
  intro l
  induction l with
  | nil => intro h h' vs hok; cases hok; exact evPres_refl h
  | cons j js ih =>
    intro h h' vs hok
    unfold evalL at hok
    cases h1 : ev h j with
    | error e => rw [h1] at hok; exact Except.noConfusion hok
    | ok p =>
      obtain ⟨h1', v⟩ := p
      rw [h1] at hok
      dsimp only at hok
      cases h2 : evalL ev h1' js with
      | error e => rw [h2] at hok; exact Except.noConfusion hok
      | ok q =>
        obtain ⟨h'', vs'⟩ := q
        rw [h2] at hok
        dsimp only at hok
        cases hok
        exact evPres_trans (hev h j h1' v h1) (ih h1' _ _ h2)

theorem eval_pres : ∀ (fuel : Nat) (h : Heap) (i : Nat) (h' : Heap) (v : ℚ),
    eval fuel h i = .ok (h', v) → EvPres h h' ∧ valueOf h' i = some v := by
  intro fuel
  induction fuel with
  | zero => intro h i h' v hok; exact Except.noConfusion hok
  | succ fuel ih =>
    intro h i h' v hok
    unfold eval at hok
    cases hh : h[i]? with
    | none => rw [hh] at hok; exact Except.noConfusion hok
    | some nd =>
      rw [hh] at hok
      dsimp only at hok
      cases hv : nd.value with
      | some w =>
        rw [hv] at hok
        dsimp only at hok
        cases hok
        exact ⟨evPres_refl h, by unfold valueOf; rw [hh]; exact hv⟩
      | none =>
        rw [hv] at hok
        dsimp only at hok
        cases hL : evalL (eval fuel) h nd.inputs with
        | error e => rw [hL] at hok; exact Except.noConfusion hok
        | ok p =>
          obtain ⟨h1, vs⟩ := p
          rw [hL] at hok
          dsimp only at hok
          cases hop : nd.op with
          | none => rw [hop] at hok; exact Except.noConfusion hok
          | some op =>
            rw [hop] at hok
            dsimp only at hok
            cases hf : forward op vs with
            | error e => rw [hf] at hok; exact Except.noConfusion hok
            | ok w =>
              rw [hf] at hok
              dsimp only at hok
              cases hok
              have hpres : EvPres h h1 :=
                evalL_pres (fun a b c d hd => (ih a b c d hd).1) nd.inputs h h1 vs hL
              have hvalnone : valueOf h i = none := by unfold valueOf; rw [hh]; exact hv
              have hImem : i < h1.length := by
                rw [hpres.1]
                exact lt_of_get?_some hh
              constructor
              · refine ⟨(length_setVal h1 i v).trans hpres.1, ?_, ?_, ?_⟩
                · intro j; exact (inputsOf_setVal h1 i j v).trans (hpres.2.1 j)
                · intro j; exact (opOf_setVal h1 i j v).trans (hpres.2.2.1 j)
                · intro j w' hw'
                  by_cases hij : j = i
                  · subst hij
                    rw [hw'] at hvalnone
                    exact Option.noConfusion hvalnone
                  · unfold valueOf
                    rw [getElem?_setVal_ne h1 v hij]
                    have hj' := hpres.2.2.2 j w' hw'
                    unfold valueOf at hj'
                    exact hj'
              · exact valueOf_setVal_self v (List.getElem?_eq_getElem hImem)

/-- C3: for leaves `a = x`, `b = y`, the four operator nodes evaluate to
`x+y`, `x-y`, `x*y`, and (when `y` is nonzero) `x/y`. -/
theorem C3_forward_rules (x y : ℚ) :
    evalVal 2 (twoLeaf x y .add).1 (twoLeaf x y .add).2 = .ok (x + y) ∧
    evalVal 2 (twoLeaf x y .sub).1 (twoLeaf x y .sub).2 = .ok (x - y) ∧
    evalVal 2 (twoLeaf x y .mul).1 (twoLeaf x y .mul).2 = .ok (x * y) ∧
    (y ≠ 0 → evalVal 2 (twoLeaf x y .div).1 (twoLeaf x y .div).2 = .ok (x / y)) := by
  refine ⟨?_, ?_, ?_, fun hy => ?_⟩ <;>
    simp [evalVal, eval, evalL, twoLeaf, leaf, applyOp, mkNode, forward, setVal, Except.map, *]

/-- Witness for C3 at `x = 1`, `y = 2`. -/
theorem C3_forward_rules_witness :
    evalVal 2 (twoLeaf 1 2 .div).1 (twoLeaf 1 2 .div).2 = .ok (1 / 2) :=
  (C3_forward_rules 1 2).2.2.2 (by norm_num)

/-- C4: in the diamond graph `d = (a+b) * (a+b)` the leaf `a` receives the
sum of the gradient contributions along both paths:
`gradients(d, [a])[0].eval() = 2 * (a.eval() + b.eval())`. -/
theorem C4_shared_subgraph (x y : ℚ) :
    gradEval 10 12 (diamond x y).1 (diamond x y).2 [0] = .ok [.ok (2 * (x + y))] := by
  simp [gradEval, gradients, leaf, mkNode, applyOp, buildTopo, buildTopoL, inputsOf,
    opOf, valueOf, revWalk, lookupG, updateG, backward, accumulate, collectWrt,
    eval, evalL, evalVal, forward, setVal, diamond, Except.map]
  ring

/-- Counterexample to C5 as stated: `c5bad` is an acyclic graph (every input
index precedes its node), yet `gradients` hits a missing mapping entry: the
walk skips node 1 (no operator), so node 0 (which has an operator) is
processed with no entry, and the `grads[node]` lookup raises `KeyError`. -/
theorem C5_counterexample :
    gradients 5 c5bad 1 [0] = .error .keyError := rfl

/-- Counterexample to C8 as stated: applying Add to the three leaves of
`c8leaves` (`Node([a, b, c], addOp)` in Python) raises nothing and produces
a fully usable node: its `eval()` succeeds and returns `1 + 2 = 3`.  No
arity check exists anywhere in the source. -/
theorem C8_counterexample :
    evalVal 2 (mkNode c8leaves [0, 1, 2] (some .add) none).1
      (mkNode c8leaves [0, 1, 2] (some .add) none).2 = .ok 3 := by
  simp [evalVal, eval, evalL, mkNode, c8leaves, forward, setVal, Except.map]
  norm_num

theorem valueOf_append {h : Heap} {j : Nat} {w : ℚ} (t : Heap)
    (hj : valueOf h j = some w) : valueOf (h ++ t) j = some w := by
  obtain ⟨nd, hnd, hv⟩ := valueOf_some_iff.mp hj
  exact valueOf_some_iff.mpr
    ⟨nd, by rw [List.getElem?_append_left (lt_of_get?_some hnd)]; exact hnd, hv⟩

theorem reaches_of_inputs_eq {h h' : Heap} (hin : ∀ x, inputsOf h' x = inputsOf h x) :
    ∀ {a b : Nat}, Reaches h' a b → Reaches h a b := by
  intro a b hr
  induction hr with
  | refl i => exact Reaches.refl i
  | step hj _ ih => exact Reaches.step (by rw [← hin]; exact hj) ih

theorem wfE_pres {h h' : Heap} (hp : EvPres h h') (hwf : wfE h) : wfE h' := by
  intro j hj
  rw [hp.1] at hj
  cases hwf j hj with
  | inl hop => exact Or.inl (by rw [hp.2.2.1 j]; exact hop)
  | inr hv =>
    refine Or.inr ?_
    cases hvo : valueOf h j with
    | none => exact absurd hvo hv
    | some w =>
      rw [hp.2.2.2 j w hvo]
      exact Option.noConfusion

theorem forward_not_disc (op : Op) (vs : List ℚ) : forward op vs ≠ .error .disconnected := by
  unfold forward
  match vs with
  | [] => exact fun hc => EvalErr.noConfusion (Except.error.inj hc)
  | [x] => exact fun hc => EvalErr.noConfusion (Except.error.inj hc)
  | x :: y :: t =>
    cases op with
    | add => exact fun hc => Except.noConfusion hc
    | sub => exact fun hc => Except.noConfusion hc
    | mul => exact fun hc => Except.noConfusion hc
    | div =>
      dsimp only
      by_cases hy : y = 0
      · rw [if_pos hy]
        intro hc
        exact EvalErr.noConfusion (Except.error.inj hc)
      · rw [if_neg hy]
        exact fun hc => Except.noConfusion hc

theorem evalL_no_disc {fuel : Nat}
    (ihd : ∀ h j, wfE h → eval fuel h j ≠ .error .disconnected) :
    ∀ (l : List Nat) (h : Heap), wfE h →
      evalL (eval fuel) h l ≠ .error .disconnected := by
  intro l
  induction l with
  | nil => intro h _ hc; exact Except.noConfusion hc
  | cons j js ih =>
    intro h hwf hc
    unfold evalL at hc
    cases h1 : eval fuel h j with
    | error e =>
      rw [h1] at hc
      dsimp only at hc
      cases Except.error.inj hc
      exact ihd h j hwf h1
    | ok p =>
      obtain ⟨h1', v⟩ := p
      rw [h1] at hc
      dsimp only at hc
      cases h2 : evalL (eval fuel) h1' js with
      | error e =>
        rw [h2] at hc
        dsimp only at hc
        cases Except.error.inj hc
        exact ih h1' (wfE_pres (eval_pres fuel h j h1' v h1).1 hwf) h2
      | ok q =>
        rw [h2] at hc
        dsimp only at hc
        exact Except.noConfusion hc

theorem eval_no_disc : ∀ (fuel : Nat) (h : Heap) (i : Nat), wfE h →
    eval fuel h i ≠ .error .disconnected := by
  intro fuel
  induction fuel with
  | zero =>
    intro h i _ hc
    exact EvalErr.noConfusion (Except.error.inj hc)
  | succ fuel ih =>
    intro h i hwf hc
    unfold eval at hc
    cases hh : h[i]? with
    | none =>
      rw [hh] at hc
      exact EvalErr.noConfusion (Except.error.inj hc)
    | some nd =>
      rw [hh] at hc
      dsimp only at hc
      cases hv : nd.value with
      | some w =>
        rw [hv] at hc
        exact Except.noConfusion hc
      | none =>
        rw [hv] at hc
        dsimp only at hc
        cases hL : evalL (eval fuel) h nd.inputs with
        | error e =>
          rw [hL] at hc
          dsimp only at hc
          cases Except.error.inj hc
          exact evalL_no_disc ih nd.inputs h hwf hL
        | ok p =>
          obtain ⟨h1, vs⟩ := p
          rw [hL] at hc
          dsimp only at hc
          cases hop : nd.op with
          | none =>
            have hi : i < h.length := lt_of_get?_some hh
            cases hwf i hi with
            | inl ho => exact ho (by unfold opOf; rw [hh]; exact hop)
            | inr hvv => exact hvv (by unfold valueOf; rw [hh]; exact hv)
          | some op =>
            rw [hop] at hc
            dsimp only at hc
            cases hf : forward op vs with
            | error e =>
              rw [hf] at hc
              dsimp only at hc
              cases Except.error.inj hc
              exact forward_not_disc op vs hf
            | ok w =>
              rw [hf] at hc
              exact Except.noConfusion hc

theorem evalL_disc {fuel : Nat}
    (ihd : ∀ h j, eval fuel h j = .error .disconnected →
      ∃ k, Reaches h j k ∧ opOf h k = none ∧ valueOf h k = none) :
    ∀ (l : List Nat) (h : Heap), evalL (eval fuel) h l = .error .disconnected →
      ∃ j ∈ l, ∃ k, Reaches h j k ∧ opOf h k = none ∧ valueOf h k = none := by
  intro l
  induction l with
  | nil => intro h hc; exact Except.noConfusion hc
  | cons j js ih =>
    intro h hc
    unfold evalL at hc
    cases h1 : eval fuel h j with
    | error e =>
      rw [h1] at hc
      dsimp only at hc
      cases Except.error.inj hc
      obtain ⟨k, hrk, hok, hvk⟩ := ihd h j h1
      exact ⟨j, List.mem_cons_self j js, k, hrk, hok, hvk⟩
    | ok p =>
      obtain ⟨h1', v⟩ := p
      rw [h1] at hc
      dsimp only at hc
      cases h2 : evalL (eval fuel) h1' js with
      | error e =>
        rw [h2] at hc
        dsimp only at hc
        cases Except.error.inj hc
        obtain ⟨j', hj', k, hrk, hok, hvk⟩ := ih h1' h2
        have hp := (eval_pres fuel h j h1' v h1).1
        refine ⟨j', List.mem_cons_of_mem j hj', k, reaches_of_inputs_eq hp.2.1 hrk, ?_, ?_⟩
        · rw [← hp.2.2.1 k]; exact hok
        · cases hvo : valueOf h k with
          | none => rfl
          | some w =>
            rw [hp.2.2.2 k w hvo] at hvk
            exact Option.noConfusion hvk
      | ok q =>
        rw [h2] at hc
        dsimp only at hc
        exact Except.noConfusion hc

theorem eval_disc : ∀ (fuel : Nat) (h : Heap) (i : Nat),
    eval fuel h i = .error .disconnected →
    ∃ k, Reaches h i k ∧ opOf h k = none ∧ valueOf h k = none := by
  intro fuel
  induction fuel with
  | zero =>
    intro h i hc
    exact absurd (Except.error.inj hc) (fun he => EvalErr.noConfusion he)
  | succ fuel ih =>
    intro h i hc
    unfold eval at hc
    cases hh : h[i]? with
    | none =>
      rw [hh] at hc
      exact absurd (Except.error.inj hc) (fun he => EvalErr.noConfusion he)
    | some nd =>
      rw [hh] at hc
      dsimp only at hc
      cases hv : nd.value with
      | some w =>
        rw [hv] at hc
        exact Except.noConfusion hc
      | none =>
        rw [hv] at hc
        dsimp only at hc
        cases hL : evalL (eval fuel) h nd.inputs with
        | error e =>
          rw [hL] at hc
          dsimp only at hc
          cases Except.error.inj hc
          obtain ⟨j, hj, k, hrk, hok, hvk⟩ := evalL_disc ih nd.inputs h hL
          have hj' : j ∈ inputsOf h i := by unfold inputsOf; rw [hh]; exact hj
          exact ⟨k, Reaches.step hj' hrk, hok, hvk⟩
        | ok p =>
          obtain ⟨h1, vs⟩ := p
          rw [hL] at hc
          dsimp only at hc
          cases hop : nd.op with
          | none =>
            refine ⟨i, Reaches.refl i, ?_, ?_⟩
            · unfold opOf; rw [hh]; exact hop
            · unfold valueOf; rw [hh]; exact hv
          | some op =>
            rw [hop] at hc
            dsimp only at hc
            cases hf : forward op vs with
            | error e =>
              rw [hf] at hc
              dsimp only at hc
              cases Except.error.inj hc
              exact absurd hf (forward_not_disc op vs)
            | ok w =>
              rw [hf] at hc
              exact Except.noConfusion hc

/-- C6: once `eval` has computed and cached a node's value, that value is
preserved by any further evaluation anywhere in the heap (part one, applied
to the heap in which the value is already cached), and a subsequent `eval`
of the same node returns the identical cached value immediately — with fuel
one it cannot recurse, so the forward rule is not re-invoked and the heap is
untouched. -/
theorem C6_memoization (fuel : Nat) (h : Heap) (i : Nat) (h' : Heap) (v : ℚ)
    (hok : eval fuel h i = .ok (h', v)) :
    (∀ j w, valueOf h j = some w → valueOf h' j = some w) ∧
    eval 1 h' i = .ok (h', v) := by
  obtain ⟨hpres, hval⟩ := eval_pres fuel h i h' v hok
  exact ⟨hpres.2.2.2, eval_cached 0 hval⟩

/-- Witness for C6: evaluating `5 * 5` caches the product, and re-evaluation
with fuel one returns it unchanged. -/
theorem C6_memoization_witness : eval 1 wheapM 1 = .ok (wheapM, 5 * 5) :=
  (C6_memoization 2 wheap 1 wheapM (5 * 5) rfl).2

/-- C9: `eval` fails with the disconnected-node error exactly by reaching a
node with neither operator nor cached value: (1) if it raises that error,
some node reachable from the evaluated one has both fields absent; (2) on a
heap whose nodes all have an operator or a value, the error is never raised,
whatever the fuel; (3) a node with a cached value returns it immediately
without any error. -/
theorem C9_disconnected :
    (∀ (fuel : Nat) (h : Heap) (i : Nat), eval fuel h i = .error .disconnected →
      ∃ k, Reaches h i k ∧ opOf h k = none ∧ valueOf h k = none) ∧
    (∀ (fuel : Nat) (h : Heap) (i : Nat), wfE h →
      eval fuel h i ≠ .error .disconnected) ∧
    (∀ (fuel : Nat) (h : Heap) (i : Nat) (v : ℚ), valueOf h i = some v →
      eval (fuel + 1) h i = .ok (h, v)) :=
  ⟨eval_disc, eval_no_disc, fun fuel _ _ _ hv => eval_cached fuel hv⟩

/-- Witness for C9: the cached leaf of `lheap` evaluates to its value. -/
theorem C9_disconnected_witness : eval 1 lheap 0 = .ok (lheap, 5) :=
  C9_disconnected.2.2 0 lheap 0 5 rfl

theorem hext_refl (h : Heap) : HExt h h := ⟨[], (List.append_nil h).symm⟩

theorem hext_app (h t : Heap) : HExt h (h ++ t) := ⟨t, rfl⟩

theorem hext_trans {a b c : Heap} (hab : HExt a b) (hbc : HExt b c) : HExt a c := by
  obtain ⟨t1, rfl⟩ := hab
  obtain ⟨t2, rfl⟩ := hbc
  exact ⟨t1 ++ t2, List.append_assoc a t1 t2⟩

theorem hext_len_le {h h' : Heap} (hext : HExt h h') : h.length ≤ h'.length := by
  obtain ⟨t, rfl⟩ := hext
  rw [List.length_append]
  exact Nat.le_add_right _ _

theorem get?_ext {h h' : Heap} {j : Nat} {nd : NodeData} (hext : HExt h h')
    (hj : h[j]? = some nd) : h'[j]? = some nd := by
  obtain ⟨t, rfl⟩ := hext
  rw [List.getElem?_append_left (lt_of_get?_some hj)]
  exact hj

theorem valueOf_ext {h h' : Heap} {j : Nat} {w : ℚ} (hext : HExt h h')
    (hj : valueOf h j = some w) : valueOf h' j = some w := by
  obtain ⟨nd, hnd, hv⟩ := valueOf_some_iff.mp hj
  exact valueOf_some_iff.mpr ⟨nd, get?_ext hext hnd, hv⟩

theorem valueOf_setVal_keep {h : Heap} {j : Nat} {w : ℚ} (i : Nat) (v : ℚ)
    (hij : j ≠ i) (hj : valueOf h j = some w) : valueOf (setVal h i v) j = some w := by
  unfold valueOf
  rw [getElem?_setVal_ne h v hij]
  exact hj

theorem evalL_nil {ev : Heap → Nat → Except EvalErr (Heap × ℚ)} {h : Heap} :
    evalL ev h [] = .ok (h, []) := rfl

theorem evalL_cons_ok {ev : Heap → Nat → Except EvalErr (Heap × ℚ)}
    {h h1 h2 : Heap} {j : Nat} {js : List Nat} {v : ℚ} {vs : List ℚ}
    (hj : ev h j = .ok (h1, v)) (hjs : evalL ev h1 js = .ok (h2, vs)) :
    evalL ev h (j :: js) = .ok (h2, v :: vs) := by
  unfold evalL
  rw [hj]
  dsimp only
  rw [hjs]

theorem eval_step {h h1 : Heap} {i : Nat} {nd : NodeData} {vs : List ℚ} {v : ℚ} {op : Op}
    (fuel : Nat) (hi : h[i]? = some nd) (hval : nd.value = none) (hop : nd.op = some op)
    (hL : evalL (eval fuel) h nd.inputs = .ok (h1, vs)) (hf : forward op vs = .ok v) :
    eval (fuel + 1) h i = .ok (setVal h1 i v, v) := by
  unfold eval
  rw [hi]
  dsimp only
  rw [hval]
  dsimp only
  rw [hL]
  dsimp only
  rw [hop]
  dsimp only
  rw [hf]

theorem forward_add (x y : ℚ) (vs : List ℚ) : forward .add (x :: y :: vs) = .ok (x + y) := rfl

theorem forward_sub (x y : ℚ) (vs : List ℚ) : forward .sub (x :: y :: vs) = .ok (x - y) := rfl

theorem forward_mul (x y : ℚ) (vs : List ℚ) : forward .mul (x :: y :: vs) = .ok (x * y) := rfl

theorem forward_div (x : ℚ) {y : ℚ} (vs : List ℚ) (hy : y ≠ 0) :
    forward .div (x :: y :: vs) = .ok (x / y) := by
  unfold forward
  dsimp only
  rw [if_neg hy]

theorem evalL_all_cached : ∀ (l : List Nat) (fuel : Nat) (h : Heap),
    (∀ j ∈ l, ∃ w, valueOf h j = some w) →
    ∃ vs, evalL (eval (fuel + 1)) h l = .ok (h, vs) := by
  intro l
  induction l with
  | nil => intro fuel h _; exact ⟨[], rfl⟩
  | cons j js ih =>
    intro fuel h hc
    obtain ⟨w, hw⟩ := hc j (List.mem_cons_self j js)
    obtain ⟨vs, hvs⟩ := ih fuel h (fun j' hj' => hc j' (List.mem_cons_of_mem j hj'))
    exact ⟨w :: vs, evalL_cons_ok (eval_cached fuel hw) hvs⟩

/-- C8 (amended): arity is not checked at construction.  Applying an operator
to a list with more inputs than its arity constructs, without any error, a
fully usable node: `eval` succeeds and computes the forward rule from the
first two inputs, ignoring the rest. -/
theorem C8_no_arity_check (h : Heap) (a b : Nat) (rest : List Nat) (va vb : ℚ)
    (ha : valueOf h a = some va) (hb : valueOf h b = some vb)
    (hrest : ∀ j ∈ rest, ∃ w, valueOf h j = some w) :
    ∃ h2, eval 2 (mkNode h (a :: b :: rest) (some .add) none).1
      (mkNode h (a :: b :: rest) (some .add) none).2 = .ok (h2, va + vb) := by
  have hnode : (h ++ [(⟨a :: b :: rest, some .add, none⟩ : NodeData)])[h.length]? =
      some ⟨a :: b :: rest, some .add, none⟩ := List.getElem?_concat_length _ _
  have hx : HExt h (h ++ [(⟨a :: b :: rest, some .add, none⟩ : NodeData)]) := hext_app _ _
  obtain ⟨vs, hvs⟩ := evalL_all_cached rest 0 _
    (fun j hj => (hrest j hj).elim (fun w hw => ⟨w, valueOf_ext hx hw⟩))
  have hL : evalL (eval 1) (h ++ [(⟨a :: b :: rest, some .add, none⟩ : NodeData)])
      (a :: b :: rest) = .ok (h ++ [(⟨a :: b :: rest, some .add, none⟩ : NodeData)],
        va :: vb :: vs) :=
    evalL_cons_ok (eval_cached 0 (valueOf_ext hx ha))
      (evalL_cons_ok (eval_cached 0 (valueOf_ext hx hb)) hvs)
  exact ⟨_, eval_step 1 hnode rfl rfl hL (forward_add va vb vs)⟩

/-- Witness for the amended C8: in `c8leaves`, Add applied to the three
leaves yields a node evaluating to `1 + 2`. -/
theorem C8_no_arity_check_witness :
    ∃ h2, eval 2 (mkNode c8leaves [0, 1, 2] (some .add) none).1
      (mkNode c8leaves [0, 1, 2] (some .add) none).2 = .ok (h2, 1 + 2) :=
  C8_no_arity_check c8leaves 0 1 [2] 1 2 rfl rfl
    (fun j hj => by
      rw [List.mem_singleton.mp hj]
      exact ⟨3, rfl⟩)

theorem lt_of_valueOf_some {h : Heap} {j : Nat} {w : ℚ} (hj : valueOf h j = some w) :
    j < h.length := by
  obtain ⟨nd, hnd, _⟩ := valueOf_some_iff.mp hj
  exact lt_of_get?_some hnd

/-- C2: the backward rule of each binary operator, on a node `i` with inputs
`[a, b]` and an incoming gradient node `g`, returns one gradient node per
input, in input order, built as new node expressions: Add returns `[g, g]`
(the heap untouched); Subtract returns `[g, r]` with `r` evaluating to
`-1 * g`; Multiply returns nodes evaluating to `b * g` and `a * g`; Divide
returns nodes evaluating to `g * (1/b)` and `g * (-1 * a / (b * b))`. -/
theorem C2_backward_rules (h : Heap) (i a b g : Nat) (va vb vg : ℚ)
    (hab : inputsOf h i = [a, b])
    (ha : valueOf h a = some va) (hb : valueOf h b = some vb)
    (hg : valueOf h g = some vg) :
    backward h .add g i = .ok (h, [g, g]) ∧
    (∃ h2 r, backward h .sub g i = .ok (h2, [g, r]) ∧ evalVal 3 h2 r = .ok (-1 * vg)) ∧
    (∃ h2 r1 r2, backward h .mul g i = .ok (h2, [r1, r2]) ∧
      evalVal 3 h2 r1 = .ok (vb * vg) ∧ evalVal 3 h2 r2 = .ok (va * vg)) ∧
    (vb ≠ 0 → ∃ h2 r1 r2, backward h .div g i = .ok (h2, [r1, r2]) ∧
      evalVal 4 h2 r1 = .ok (vg * (1 / vb)) ∧
      evalVal 4 h2 r2 = .ok (vg * (-1 * va / (vb * vb)))) := by
  refine ⟨rfl, ?_, ?_, ?_⟩
  · -- Subtract
    set B1 : Heap := h ++ [⟨[], none, some (-1)⟩] with hB1def
    set B2 : Heap := B1 ++ [⟨[h.length, g], some .mul, none⟩] with hB2def
    have hbk : backward h .sub g i = .ok (B2, [g, B1.length]) := rfl
    refine ⟨B2, B1.length, hbk, ?_⟩
    have hx2 : HExt B1 B2 := hext_app _ _
    have hm : valueOf B2 h.length = some (-1) :=
      valueOf_ext hx2 (valueOf_some_iff.mpr ⟨_, List.getElem?_concat_length h _, rfl⟩)
    have hgv : valueOf B2 g = some vg :=
      valueOf_ext (hext_trans (hext_app h _) hx2) hg
    have hr : B2[B1.length]? = some ⟨[h.length, g], some .mul, none⟩ :=
      List.getElem?_concat_length _ _
    have hL : evalL (eval 2) B2 [h.length, g] = .ok (B2, [-1, vg]) :=
      evalL_cons_ok (eval_cached 1 hm) (evalL_cons_ok (eval_cached 1 hgv) evalL_nil)
    have hev : eval 3 B2 B1.length = .ok (setVal B2 B1.length (-1 * vg), -1 * vg) :=
      eval_step 2 hr rfl rfl hL (forward_mul (-1) vg [])
    unfold evalVal
    rw [hev]
    rfl
  · -- Multiply
    set B1 : Heap := h ++ [⟨[b, g], some .mul, none⟩] with hB1def
    set B2 : Heap := B1 ++ [⟨[a, g], some .mul, none⟩] with hB2def
    have hbk : backward h .mul g i = .ok (B2, [h.length, B1.length]) := by
      unfold backward
      rw [hab]
      rfl
    refine ⟨B2, h.length, B1.length, hbk, ?_, ?_⟩
    all_goals {
      have hx2 : HExt B1 B2 := hext_app _ _
      have hxh : HExt h B2 := hext_trans (hext_app h _) hx2
      have hr1 : B2[h.length]? = some ⟨[b, g], some .mul, none⟩ :=
        get?_ext hx2 (List.getElem?_concat_length h _)
      have hr2 : B2[B1.length]? = some ⟨[a, g], some .mul, none⟩ :=
        List.getElem?_concat_length _ _
      have hav : valueOf B2 a = some va := valueOf_ext hxh ha
      have hbv : valueOf B2 b = some vb := valueOf_ext hxh hb
      have hgv : valueOf B2 g = some vg := valueOf_ext hxh hg
      first
      | (have hev : eval 3 B2 h.length = .ok (setVal B2 h.length (vb * vg), vb * vg) :=
          eval_step 2 hr1 rfl rfl
            (evalL_cons_ok (eval_cached 1 hbv) (evalL_cons_ok (eval_cached 1 hgv) evalL_nil))
            (forward_mul vb vg [])
         unfold evalVal
         rw [hev]
         rfl)
      | (have hev : eval 3 B2 B1.length = .ok (setVal B2 B1.length (va * vg), va * vg) :=
          eval_step 2 hr2 rfl rfl
            (evalL_cons_ok (eval_cached 1 hav) (evalL_cons_ok (eval_cached 1 hgv) evalL_nil))
            (forward_mul va vg [])
         unfold evalVal
         rw [hev]
         rfl) }
  · -- Divide
    intro hb0
    set A1 : Heap := h ++ [⟨[], none, some 1⟩] with hA1def
    set A2 : Heap := A1 ++ [⟨[h.length, b], some .div, none⟩] with hA2def
    set A3 : Heap := A2 ++ [⟨[g, A1.length], some .mul, none⟩] with hA3def
    set A4 : Heap := A3 ++ [⟨[], none, some (-1)⟩] with hA4def
    set A5 : Heap := A4 ++ [⟨[A3.length, a], some .mul, none⟩] with hA5def
    set A6 : Heap := A5 ++ [⟨[b, b], some .mul, none⟩] with hA6def
    set A7 : Heap := A6 ++ [⟨[A4.length, A5.length], some .div, none⟩] with hA7def
    set H : Heap := A7 ++ [⟨[g, A6.length], some .mul, none⟩] with hHdef
    have hbk : backward h .div g i = .ok (H, [A2.length, A7.length]) := by
      unfold backward
      rw [hab]
      rfl
    refine ⟨H, A2.length, A7.length, hbk, ?_, ?_⟩
    all_goals
      have hx1 : HExt h A1 := hext_app _ _
      have hx2 : HExt A1 A2 := hext_app _ _
      have hx3 : HExt A2 A3 := hext_app _ _
      have hx4 : HExt A3 A4 := hext_app _ _
      have hx5 : HExt A4 A5 := hext_app _ _
      have hx6 : HExt A5 A6 := hext_app _ _
      have hx7 : HExt A6 A7 := hext_app _ _
      have hx8 : HExt A7 H := hext_app _ _
      have hxh : HExt h H :=
        hext_trans hx1 (hext_trans hx2 (hext_trans hx3 (hext_trans hx4
          (hext_trans hx5 (hext_trans hx6 (hext_trans hx7 hx8))))))
      have hav : valueOf H a = some va := valueOf_ext hxh ha
      have hbv : valueOf H b = some vb := valueOf_ext hxh hb
      have hgv : valueOf H g = some vg := valueOf_ext hxh hg
      have hone : valueOf H h.length = some 1 :=
        valueOf_ext (hext_trans hx2 (hext_trans hx3 (hext_trans hx4 (hext_trans hx5
          (hext_trans hx6 (hext_trans hx7 hx8))))))
          (valueOf_some_iff.mpr ⟨_, List.getElem?_concat_length h _, rfl⟩)
      have hneg : valueOf H A3.length = some (-1) :=
        valueOf_ext (hext_trans hx5 (hext_trans hx6 (hext_trans hx7 hx8)))
          (valueOf_some_iff.mpr ⟨_, List.getElem?_concat_length A3 _, rfl⟩)
    · -- first returned gradient: g * (1 / b)
      have hq : H[A1.length]? = some ⟨[h.length, b], some .div, none⟩ :=
        get?_ext (hext_trans hx3 (hext_trans hx4 (hext_trans hx5
          (hext_trans hx6 (hext_trans hx7 hx8)))))
          (List.getElem?_concat_length A1 _)
      have ht1 : H[A2.length]? = some ⟨[g, A1.length], some .mul, none⟩ :=
        get?_ext (hext_trans hx4 (hext_trans hx5 (hext_trans hx6
          (hext_trans hx7 hx8))))
          (List.getElem?_concat_length A2 _)
      have hLq : evalL (eval 2) H [h.length, b] = .ok (H, [1, vb]) :=
        evalL_cons_ok (eval_cached 1 hone) (evalL_cons_ok (eval_cached 1 hbv) evalL_nil)
      have hevq : eval 3 H A1.length =
          .ok (setVal H A1.length (1 / vb), 1 / vb) :=
        eval_step 2 hq rfl rfl hLq (forward_div 1 [] hb0)
      have hLt1 : evalL (eval 3) H [g, A1.length] =
          .ok (setVal H A1.length (1 / vb), [vg, 1 / vb]) :=
        evalL_cons_ok (eval_cached 2 hgv) (evalL_cons_ok hevq evalL_nil)
      have hev : eval 4 H A2.length =
          .ok (setVal (setVal H A1.length (1 / vb)) A2.length (vg * (1 / vb)),
            vg * (1 / vb)) :=
        eval_step 3 ht1 rfl rfl hLt1 (forward_mul vg (1 / vb) [])
      unfold evalVal
      rw [hev]
      rfl
    · -- second returned gradient: g * (-1 * a / (b * b))
      have hm1 : H[A4.length]? = some ⟨[A3.length, a], some .mul, none⟩ :=
        get?_ext (hext_trans hx6 (hext_trans hx7 hx8))
          (List.getElem?_concat_length A4 _)
      have hsqn : H[A5.length]? = some ⟨[b, b], some .mul, none⟩ :=
        get?_ext (hext_trans hx7 hx8) (List.getElem?_concat_length A5 _)
      have hdn : H[A6.length]? = some ⟨[A4.length, A5.length], some .div, none⟩ :=
        get?_ext hx8 (List.getElem?_concat_length A6 _)
      have ht2 : H[A7.length]? = some ⟨[g, A6.length], some .mul, none⟩ :=
        List.getElem?_concat_length A7 _
      have hbm : b < A4.length :=
        Nat.lt_of_lt_of_le (lt_of_valueOf_some hb)
          (hext_len_le (hext_trans hx1 (hext_trans hx2 (hext_trans hx3 hx4))))
      have hm1sq : A4.length < A5.length := by
        simp [hA5def]
      have hevm1 : eval 2 H A4.length =
          .ok (setVal H A4.length (-1 * va), -1 * va) :=
        eval_step 1 hm1 rfl rfl
          (evalL_cons_ok (eval_cached 0 hneg) (evalL_cons_ok (eval_cached 0 hav) evalL_nil))
          (forward_mul (-1) va [])
      have hsq' : (setVal H A4.length (-1 * va))[A5.length]? =
          some ⟨[b, b], some .mul, none⟩ := by
        rw [getElem?_setVal_ne H (-1 * va) (Nat.ne_of_gt hm1sq)]
        exact hsqn
      have hbv' : valueOf (setVal H A4.length (-1 * va)) b = some vb :=
        valueOf_setVal_keep _ _ (Nat.ne_of_lt hbm) hbv
      have hevsq : eval 2 (setVal H A4.length (-1 * va)) A5.length =
          .ok (setVal (setVal H A4.length (-1 * va)) A5.length (vb * vb), vb * vb) :=
        eval_step 1 hsq' rfl rfl
          (evalL_cons_ok (eval_cached 0 hbv') (evalL_cons_ok (eval_cached 0 hbv') evalL_nil))
          (forward_mul vb vb [])
      have hevd : eval 3 H A6.length =
          .ok (setVal (setVal (setVal H A4.length (-1 * va)) A5.length (vb * vb))
            A6.length (-1 * va / (vb * vb)), -1 * va / (vb * vb)) :=
        eval_step 2 hdn rfl rfl
          (evalL_cons_ok hevm1 (evalL_cons_ok hevsq evalL_nil))
          (forward_div (-1 * va) [] (mul_ne_zero hb0 hb0))
      have hev : eval 4 H A7.length =
          .ok (setVal (setVal (setVal (setVal H A4.length (-1 * va)) A5.length (vb * vb))
            A6.length (-1 * va / (vb * vb))) A7.length (vg * (-1 * va / (vb * vb))),
            vg * (-1 * va / (vb * vb))) :=
        eval_step 3 ht2 rfl rfl
          (evalL_cons_ok (eval_cached 2 hgv) (evalL_cons_ok hevd evalL_nil))
          (forward_mul vg (-1 * va / (vb * vb)) [])
      unfold evalVal
      rw [hev]
      rfl

/-- Witness for C2: in the concrete heap `bheap` (values 5 and 7 feeding a
product node 2, gradient node 3 holding 11), the Add rule returns the
gradient node twice unchanged, and the Divide rule builds nodes evaluating
to `11 * (1/7)` and `11 * (-1 * 5 / (7 * 7))`. -/
theorem C2_backward_rules_witness :
    backward bheap .add 3 2 = .ok (bheap, [3, 3]) ∧
    (∃ h2 r1 r2, backward bheap .div 3 2 = .ok (h2, [r1, r2]) ∧
      evalVal 4 h2 r1 = .ok (11 * (1 / 7)) ∧
      evalVal 4 h2 r2 = .ok (11 * (-1 * 5 / (7 * 7)))) :=
  ⟨(C2_backward_rules bheap 2 0 1 3 5 7 11 rfl rfl rfl rfl).1,
   (C2_backward_rules bheap 2 0 1 3 5 7 11 rfl rfl rfl rfl).2.2.2 (by norm_num)⟩

theorem backward_ext {h h2 : Heap} {op : Op} {g i : Nat} {gs : List Nat}
    (hok : backward h op g i = .ok (h2, gs)) : HExt h h2 := by
  unfold backward at hok
  cases op with
  | add => cases hok; exact hext_refl h
  | sub =>
    dsimp only at hok
    cases hok
    exact hext_trans (hext_app h _) (hext_app _ _)
  | mul =>
    cases h0 : (inputsOf h i)[0]? with
    | none => rw [h0] at hok; exact Except.noConfusion hok
    | some a' =>
      rw [h0] at hok
      cases h1 : (inputsOf h i)[1]? with
      | none => rw [h1] at hok; exact Except.noConfusion hok
      | some b' =>
        rw [h1] at hok
        dsimp only at hok
        cases hok
        exact hext_trans (hext_app h _) (hext_app _ _)
  | div =>
    cases h0 : (inputsOf h i)[0]? with
    | none => rw [h0] at hok; exact Except.noConfusion hok
    | some a' =>
      rw [h0] at hok
      cases h1 : (inputsOf h i)[1]? with
      | none => rw [h1] at hok; exact Except.noConfusion hok
      | some b' =>
        rw [h1] at hok
        dsimp only at hok
        cases hok
        exact hext_trans (hext_app h _) (hext_trans (hext_app _ _) (hext_trans (hext_app _ _)
          (hext_trans (hext_app _ _) (hext_trans (hext_app _ _) (hext_trans (hext_app _ _)
            (hext_trans (hext_app _ _) (hext_app _ _)))))))

theorem accumulate_ext : ∀ (pairs : List (Nat × Nat)) (h : Heap) (grads : List (Nat × Nat)),
    HExt h (accumulate h grads pairs).1 := by
  intro pairs
  induction pairs with
  | nil => intro h grads; exact hext_refl h
  | cons p rest ih =>
    intro h grads
    obtain ⟨inp, g⟩ := p
    unfold accumulate
    cases lookupG grads inp with
    | some old =>
      dsimp only
      exact hext_trans (hext_app h _) (ih _ _)
    | none =>
      dsimp only
      exact ih _ _

theorem revWalk_ext : ∀ (r : List Nat) (h : Heap) (grads : List (Nat × Nat))
    (h2 : Heap) (g2 : List (Nat × Nat)),
    revWalk h grads r = .ok (h2, g2) → HExt h h2 := by
  intro r
  induction r with
  | nil => intro h grads h2 g2 hok; cases hok; exact hext_refl h
  | cons n rest ih =>
    intro h grads h2 g2 hok
    unfold revWalk at hok
    cases hop : opOf h n with
    | none =>
      rw [hop] at hok
      exact ih h grads h2 g2 hok
    | some op =>
      rw [hop] at hok
      dsimp only at hok
      cases hlk : lookupG grads n with
      | none => rw [hlk] at hok; exact Except.noConfusion hok
      | some g =>
        rw [hlk] at hok
        dsimp only at hok
        cases hbk : backward h op g n with
        | error e => rw [hbk] at hok; exact Except.noConfusion hok
        | ok p =>
          obtain ⟨hB, inGrads⟩ := p
          rw [hbk] at hok
          dsimp only at hok
          exact hext_trans (backward_ext hbk)
            (hext_trans (accumulate_ext _ _ _) (ih _ _ _ _ hok))

theorem collectWrt_ext : ∀ (ws : List Nat) (h : Heap) (grads : List (Nat × Nat)),
    HExt h (collectWrt h grads ws).1 := by
  intro ws
  induction ws with
  | nil => intro h grads; exact hext_refl h
  | cons i rest ih =>
    intro h grads
    unfold collectWrt
    dsimp only
    exact hext_trans (hext_app h _) (ih _ _)

/-- C10: `gradients` mutates no existing node and performs no forward
evaluation: on success the resulting heap extends the given one by appended
gradient nodes only, so every node present before the call — its `inputs`,
`op`, and `value` fields — reads back identically afterwards. -/
theorem C10_frame (fuel : Nat) (h : Heap) (out : Nat) (wrt : List Nat)
    (h' : Heap) (gs : List Nat) (hok : gradients fuel h out wrt = .ok (h', gs)) :
    HExt h h' ∧ ∀ j, j < h.length → h'[j]? = h[j]? := by
  have hmain : HExt h h' := by
    unfold gradients at hok
    simp only [leaf, mkNode] at hok
    cases hbt : buildTopo (h ++ [⟨[], none, some 1⟩]) fuel out ([], []) with
    | none => rw [hbt] at hok; exact Except.noConfusion hok
    | some st =>
      obtain ⟨vis, topo⟩ := st
      rw [hbt] at hok
      dsimp only at hok
      cases hrw : revWalk (h ++ [⟨[], none, some 1⟩]) [(out, h.length)] topo.reverse with
      | error e => rw [hrw] at hok; exact Except.noConfusion hok
      | ok p =>
        obtain ⟨h2, grads2⟩ := p
        rw [hrw] at hok
        dsimp only at hok
        have hinj : collectWrt h2 grads2 wrt = (h', gs) := Except.ok.inj hok
        have hh' : h' = (collectWrt h2 grads2 wrt).1 := by rw [hinj]
        rw [hh']
        exact hext_trans (hext_app h _)
          (hext_trans (revWalk_ext _ _ _ _ _ hrw) (collectWrt_ext _ _ _))
  refine ⟨hmain, ?_⟩
  intro j hj
  obtain ⟨t, rfl⟩ := hmain
  exact List.getElem?_append_left hj

/-- Witness for C10: a one-leaf heap is preserved by `gradients`. -/
theorem C10_frame_witness :
    ([⟨[], none, some 5⟩, ⟨[], none, some 1⟩, ⟨[], none, some 0⟩] : Heap)[0]? =
      lheap[0]? :=
  (C10_frame 3 lheap 0 [0]
    [⟨[], none, some 5⟩, ⟨[], none, some 1⟩, ⟨[], none, some 0⟩] [1] rfl).2 0
    (by decide)

theorem inputsOf_ext {h h' : Heap} (hext : HExt h h') {i : Nat} (hi : i < h.length) :
    inputsOf h' i = inputsOf h i := by
  obtain ⟨t, rfl⟩ := hext
  unfold inputsOf
  rw [List.getElem?_append_left hi]

theorem opOf_ext {h h' : Heap} (hext : HExt h h') {i : Nat} (hi : i < h.length) :
    opOf h' i = opOf h i := by
  obtain ⟨t, rfl⟩ := hext
  unfold opOf
  rw [List.getElem?_append_left hi]

theorem inputsOf_oor {h : Heap} {i : Nat} (hi : h.length ≤ i) : inputsOf h i = [] := by
  unfold inputsOf
  rw [List.getElem?_eq_none hi]

theorem ordered_all {h : Heap} (ho : orderedB h) : ∀ i, ∀ j ∈ inputsOf h i, j < i := by
  intro i j hj
  by_cases hi : i < h.length
  · exact ho i hi j hj
  · rw [inputsOf_oor (Nat.le_of_not_lt hi)] at hj
    exact absurd hj (List.not_mem_nil j)

theorem reaches_le {h : Heap} (ho : orderedB h) {i k : Nat} (hr : Reaches h i k) : k ≤ i := by
  induction hr with
  | refl i => exact Nat.le_refl i
  | step hj _ ih => exact Nat.le_trans ih (Nat.le_of_lt (ordered_all ho _ _ hj))

theorem orderedB_snoc_leaf {h : Heap} (ho : orderedB h) (v : ℚ) :
    orderedB (h ++ [⟨[], none, some v⟩]) := by
  intro i hi j hj
  rcases Nat.lt_or_ge i h.length with hlt | hge
  · rw [inputsOf_ext (hext_app h _) hlt] at hj
    exact ho i hlt j hj
  · have hieq : i = h.length := by
      rw [List.length_append] at hi
      simp only [List.length_cons, List.length_nil] at hi
      omega
    subst hieq
    have : inputsOf (h ++ [(⟨[], none, some v⟩ : NodeData)]) h.length = [] := by
      unfold inputsOf
      rw [List.getElem?_concat_length]
    rw [this] at hj
    exact absurd hj (List.not_mem_nil j)

theorem buildTopoL_members {h : Heap}
    {bt : Nat → List Nat × List Nat → Option (List Nat × List Nat)}
    (hbt : ∀ j vis topo vis' topo', bt j (vis, topo) = some (vis', topo') →
      ∀ k ∈ topo', k ∈ topo ∨ Reaches h j k) :
    ∀ (l : List Nat) (vis topo vis' topo' : List Nat),
      buildTopoL bt l (vis, topo) = some (vis', topo') →
      ∀ k ∈ topo', k ∈ topo ∨ ∃ j ∈ l, Reaches h j k := by
  intro l
  induction l with
  | nil =>
    intro vis topo vis' topo' hok k hk
    cases hok
    exact Or.inl hk
  | cons j js ih =>
    intro vis topo vis' topo' hok k hk
    unfold buildTopoL at hok
    cases h1 : bt j (vis, topo) with
    | none => rw [h1] at hok; exact Option.noConfusion hok
    | some st' =>
      obtain ⟨vis1, topo1⟩ := st'
      rw [h1] at hok
      dsimp only at hok
      rcases ih vis1 topo1 vis' topo' hok k hk with hk1 | ⟨j', hj', hr⟩
      · rcases hbt j vis topo vis1 topo1 h1 k hk1 with hk0 | hr
        · exact Or.inl hk0
        · exact Or.inr ⟨j, List.mem_cons_self j js, hr⟩
      · exact Or.inr ⟨j', List.mem_cons_of_mem j hj', hr⟩

theorem buildTopo_members (h : Heap) : ∀ (fuel : Nat) (i : Nat)
    (vis topo vis' topo' : List Nat),
    buildTopo h fuel i (vis, topo) = some (vis', topo') →
    ∀ k ∈ topo', k ∈ topo ∨ Reaches h i k := by
  intro fuel
  induction fuel with
  | zero => intro i vis topo vis' topo' hok; exact Option.noConfusion hok
  | succ fuel ih =>
    intro i vis topo vis' topo' hok k hk
    unfold buildTopo at hok
    by_cases hv : i ∈ vis
    · rw [if_pos hv] at hok
      cases hok
      exact Or.inl hk
    · rw [if_neg hv] at hok
      cases hL : buildTopoL (buildTopo h fuel) (inputsOf h i) (i :: vis, topo) with
      | none => rw [hL] at hok; exact Option.noConfusion hok
      | some st' =>
        obtain ⟨vis1, topo1⟩ := st'
        rw [hL] at hok
        dsimp only at hok
        cases hok
        rcases List.mem_append.mp hk with hk1 | hk2
        · rcases buildTopoL_members ih (inputsOf h i) (i :: vis) topo _ _ hL k hk1
            with hk0 | ⟨j, hj, hr⟩
          · exact Or.inl hk0
          · exact Or.inr (Reaches.step hj hr)
        · rw [List.mem_singleton.mp hk2]
          exact Or.inr (Reaches.refl i)

theorem lookupG_updateG_ne {x k v : Nat} (hne : x ≠ k) :
    ∀ grads : List (Nat × Nat), lookupG (updateG grads k v) x = lookupG grads x := by
  intro grads
  induction grads with
  | nil => simp [updateG, lookupG, Ne.symm hne]
  | cons p rest ih =>
    obtain ⟨k', v'⟩ := p
    by_cases hkk : k' = k
    · subst hkk
      simp [updateG, lookupG, Ne.symm hne]
    · simp only [updateG, if_neg hkk]
      by_cases hkx : k' = x
      · simp [lookupG, hkx]
      · simp only [lookupG, if_neg hkx]
        exact ih

theorem accumulate_lookup_keep : ∀ (pairs : List (Nat × Nat)) (h : Heap)
    (grads : List (Nat × Nat)) (x : Nat), (∀ p ∈ pairs, x ≠ p.1) →
    lookupG (accumulate h grads pairs).2 x = lookupG grads x := by
  intro pairs
  induction pairs with
  | nil => intro h grads x _; rfl
  | cons p rest ih =>
    intro h grads x hx
    obtain ⟨inp, g⟩ := p
    have hxi : x ≠ inp := hx (inp, g) (List.mem_cons_self _ _)
    unfold accumulate
    cases lookupG grads inp with
    | some old =>
      dsimp only
      rw [ih _ _ x (fun q hq => hx q (List.mem_cons_of_mem _ hq))]
      exact lookupG_updateG_ne hxi grads
    | none =>
      dsimp only
      rw [ih _ _ x (fun q hq => hx q (List.mem_cons_of_mem _ hq))]
      exact lookupG_updateG_ne hxi grads

theorem revWalk_lookup_keep (hbase : Heap) :
    ∀ (r : List Nat) (h : Heap) (grads : List (Nat × Nat)) (h2 : Heap)
      (g2 : List (Nat × Nat)) (x : Nat),
    HExt hbase h →
    (∀ n ∈ r, n < hbase.length) →
    (∀ n ∈ r, x ∉ inputsOf hbase n) →
    revWalk h grads r = .ok (h2, g2) →
    lookupG g2 x = lookupG grads x := by
  intro r
  induction r with
  | nil => intro h grads h2 g2 x _ _ _ hok; cases hok; rfl
  | cons n rest ih =>
    intro h grads h2 g2 x hx hb hnin hok
    unfold revWalk at hok
    cases hop : opOf h n with
    | none =>
      rw [hop] at hok
      exact ih h grads h2 g2 x hx (fun m hm => hb m (List.mem_cons_of_mem n hm))
        (fun m hm => hnin m (List.mem_cons_of_mem n hm)) hok
    | some op =>
      rw [hop] at hok
      dsimp only at hok
      cases hlk : lookupG grads n with
      | none => rw [hlk] at hok; exact Except.noConfusion hok
      | some g =>
        rw [hlk] at hok
        dsimp only at hok
        cases hbk : backward h op g n with
        | error e => rw [hbk] at hok; exact Except.noConfusion hok
        | ok p =>
          obtain ⟨hB, inGrads⟩ := p
          rw [hbk] at hok
          dsimp only at hok
          have hxB : HExt hbase hB := hext_trans hx (backward_ext hbk)
          have hnb : n < hbase.length := hb n (List.mem_cons_self _ _)
          have hkeys : ∀ p ∈ (inputsOf hB n).zip inGrads, x ≠ p.1 := by
            intro q hq
            have hq1 : q.1 ∈ inputsOf hB n := by
              obtain ⟨qa, qb⟩ := q
              exact (List.of_mem_zip hq).1
            rw [inputsOf_ext hxB hnb] at hq1
            intro he
            exact hnin n (List.mem_cons_self _ _) (he ▸ hq1)
          have hacc := accumulate_lookup_keep ((inputsOf hB n).zip inGrads) hB grads x hkeys
          rw [← hacc]
          exact ih _ _ h2 g2 x
            (hext_trans hxB (accumulate_ext _ _ _))
            (fun m hm => hb m (List.mem_cons_of_mem n hm))
            (fun m hm => hnin m (List.mem_cons_of_mem n hm)) hok

theorem collectWrt_get : ∀ (ws : List Nat) (h : Heap) (grads : List (Nat × Nat))
    (k : Nat) (i gid : Nat),
    ws[k]? = some i → lookupG grads i = some gid →
    ((collectWrt h grads ws).2)[k]? = some gid := by
  intro ws
  induction ws with
  | nil => intro h grads k i gid hk _; simp at hk
  | cons w rest ih =>
    intro h grads k i gid hk hlk
    cases k with
    | zero =>
      have hw : w = i := by simpa using hk
      subst hw
      unfold collectWrt
      dsimp only
      rw [hlk]
      simp
    | succ k' =>
      have hk' : rest[k']? = some i := by simpa using hk
      unfold collectWrt
      dsimp only
      rw [List.getElem?_cons_succ]
      exact ih _ _ k' i gid hk' hlk

/-- C7: if the output node is among the requested `wrt` nodes, the returned
gradient for it is the seed leaf of step 1, which evaluates to exactly 1; in
an ordered (acyclic-by-construction) heap the output is never an input of a
reachable node, so the seed entry is never overwritten or accumulated. -/
theorem C7_self_gradient (fuel : Nat) (h : Heap) (out : Nat) (wrt : List Nat)
    (h' : Heap) (gs : List Nat) (k : Nat)
    (ho : orderedB h) (hout : out < h.length)
    (hok : gradients fuel h out wrt = .ok (h', gs)) (hk : wrt[k]? = some out) :
    ∃ gid, gs[k]? = some gid ∧ eval 1 h' gid = .ok (h', 1) := by
  unfold gradients at hok
  simp only [leaf, mkNode] at hok
  cases hbt : buildTopo (h ++ [⟨[], none, some 1⟩]) fuel out ([], []) with
  | none => rw [hbt] at hok; exact Except.noConfusion hok
  | some st =>
    obtain ⟨vis, topo⟩ := st
    rw [hbt] at hok
    dsimp only at hok
    cases hrw : revWalk (h ++ [⟨[], none, some 1⟩]) [(out, h.length)] topo.reverse with
    | error e => rw [hrw] at hok; exact Except.noConfusion hok
    | ok p =>
      obtain ⟨h2, grads2⟩ := p
      rw [hrw] at hok
      dsimp only at hok
      have hinj : collectWrt h2 grads2 wrt = (h', gs) := Except.ok.inj hok
      have hh' : h' = (collectWrt h2 grads2 wrt).1 := by rw [hinj]
      have hgs : gs = (collectWrt h2 grads2 wrt).2 := by rw [hinj]
      have ho1 : orderedB (h ++ [⟨[], none, some 1⟩]) := orderedB_snoc_leaf ho 1
      have hmem : ∀ n ∈ topo.reverse, Reaches (h ++ [⟨[], none, some 1⟩]) out n := by
        intro n hn
        rcases buildTopo_members _ fuel out [] [] vis topo hbt n
          (List.mem_reverse.mp hn) with hfalse | hr
        · exact absurd hfalse (List.not_mem_nil n)
        · exact hr
      have hb : ∀ n ∈ topo.reverse, n < (h ++ [(⟨[], none, some 1⟩ : NodeData)]).length := by
        intro n hn
        have hle : n ≤ out := reaches_le ho1 (hmem n hn)
        rw [List.length_append]
        exact Nat.lt_of_le_of_lt hle (Nat.lt_of_lt_of_le hout (Nat.le_add_right _ _))
      have hnin : ∀ n ∈ topo.reverse, out ∉ inputsOf (h ++ [⟨[], none, some 1⟩]) n := by
        intro n hn hcon
        have hlt : out < n := ordered_all ho1 n out hcon
        exact absurd (reaches_le ho1 (hmem n hn)) (Nat.not_le_of_lt hlt)
      have hseed : lookupG [(out, h.length)] out = some h.length := by
        simp [lookupG]
      have hlk : lookupG grads2 out = some h.length := by
        rw [revWalk_lookup_keep (h ++ [⟨[], none, some 1⟩]) topo.reverse _ _ h2 grads2 out
          (hext_refl _) hb hnin hrw]
        exact hseed
      refine ⟨h.length, ?_, ?_⟩
      · rw [hgs]
        exact collectWrt_get wrt h2 grads2 k out h.length hk hlk
      · have hseedval : valueOf (h ++ [⟨[], none, some 1⟩]) h.length = some 1 :=
          valueOf_some_iff.mpr ⟨_, List.getElem?_concat_length h _, rfl⟩
        have hxh' : HExt (h ++ [⟨[], none, some 1⟩]) h' := by
          rw [hh']
          exact hext_trans (revWalk_ext _ _ _ _ _ hrw) (collectWrt_ext _ _ _)
        exact eval_cached 0 (valueOf_ext hxh' hseedval)

/-- Witness for C7: the single leaf of `lheap` as output, requested in
`wrt`, yields the seed gradient node, which evaluates to 1. -/
theorem C7_self_gradient_witness :
    ∃ gid, ([1] : List Nat)[0]? = some gid ∧
      eval 1 [⟨[], none, some 5⟩, ⟨[], none, some 1⟩, ⟨[], none, some 0⟩] gid =
        .ok ([⟨[], none, some 5⟩, ⟨[], none, some 1⟩, ⟨[], none, some 0⟩], 1) :=
  C7_self_gradient 3 lheap 0 [0]
    [⟨[], none, some 5⟩, ⟨[], none, some 1⟩, ⟨[], none, some 0⟩] [1] 0
    (by decide) (by decide) rfl rfl

theorem before_append_right {l : List Nat} {x y : Nat} (l' : List Nat)
    (hb : Before l x y) : Before (l ++ l') x y := by
  obtain ⟨m, n, hmn, hmx, hny⟩ := hb
  exact ⟨m, n, hmn,
    by rw [List.getElem?_append_left (lt_of_get?_some hmx)]; exact hmx,
    by rw [List.getElem?_append_left (lt_of_get?_some hny)]; exact hny⟩

theorem before_snoc {l : List Nat} {x : Nat} (i : Nat) (hx : x ∈ l) :
    Before (l ++ [i]) x i := by
  obtain ⟨m, hm⟩ := List.mem_iff_getElem?.mp hx
  refine ⟨m, l.length, lt_of_get?_some hm, ?_, List.getElem?_concat_length l i⟩
  rw [List.getElem?_append_left (lt_of_get?_some hm)]
  exact hm

theorem before_to_done {topo A D : List Nat} {x y : Nat}
    (hnd : topo.Nodup) (hsplit : topo = A ++ x :: D) (hb : Before topo x y) : y ∈ D := by
  obtain ⟨m, n, hmn, hmx, hny⟩ := hb
  have hAx : topo[A.length]? = some x := by
    rw [hsplit, List.getElem?_append_right (Nat.le_refl A.length)]
    simp
  have hmA : m = A.length := by
    have hmlt : m < topo.length := lt_of_get?_some hmx
    exact List.getElem?_inj hmlt hnd (by rw [hmx, hAx])
  subst hmA
  have hge : A.length + 1 ≤ n := hmn
  rw [hsplit, List.getElem?_append_right (Nat.le_of_lt hmn)] at hny
  have hpos : 0 < n - A.length := by omega
  cases hq : n - A.length with
  | zero => omega
  | succ k =>
    rw [hq, List.getElem?_cons_succ] at hny
    exact List.getElem?_mem hny

theorem snoc_split {l1 l2 t : List Nat} {c i : Nat}
    (heq : l1 ++ c :: l2 = t ++ [i]) :
    (c = i ∧ l1 = t ∧ l2 = []) ∨ ∃ l2', l2 = l2' ++ [i] ∧ t = l1 ++ c :: l2' := by
  rcases List.append_eq_append_iff.mp heq with ⟨a', ha1, ha2⟩ | ⟨c', hc1, hc2⟩
  · cases a' with
    | nil =>
      rw [List.append_nil] at ha1
      have := ha2
      simp only [List.nil_append] at this
      obtain ⟨hce, hle⟩ := List.cons.inj this
      exact Or.inl ⟨hce, ha1.symm, hle⟩
    | cons a0 a0s =>
      obtain ⟨hce, hle⟩ := List.cons.inj ha2
      subst hce
      exact Or.inr ⟨a0s, hle, by rw [ha1]⟩
  · cases c' with
    | nil =>
      rw [List.append_nil] at hc1
      simp only [List.nil_append] at hc2
      obtain ⟨hce, hle⟩ := List.cons.inj hc2.symm
      exact Or.inl ⟨hce, hc1, hle⟩
    | cons c0 c0s =>
      exfalso
      have : ([i] : List Nat).length = (c0 :: c0s ++ c :: l2).length := by rw [hc2]
      simp [List.length_append] at this

theorem inv_closed {h : Heap} {vis topo : List Nat} (hinv : DfsInv h vis topo)
    {c : Nat} (hc : c ∈ topo) : ∀ j ∈ inputsOf h c, j ∈ topo := by
  intro j hj
  obtain ⟨s, t, hst⟩ := List.append_of_mem hc
  have := hinv.ord s c t hst j hj
  rw [hst]
  exact List.mem_append_left _ this

theorem complete_of_mem {h : Heap} {vis topo : List Nat} (hinv : DfsInv h vis topo)
    {i : Nat} (hi : i ∈ topo) : ∀ k, Reaches h i k → k ∈ topo := by
  intro k hr
  induction hr with
  | refl j => exact hi
  | step hj hr ih =>
    exact ih (inv_closed hinv hi _ hj)

theorem dfsL_main {h : Heap} (_ho : orderedB h)
    {bt : Nat → List Nat × List Nat → Option (List Nat × List Nat)}
    (hbt : ∀ j vis topo vis' topo', DfsPre h j vis topo →
      bt j (vis, topo) = some (vis', topo') → DfsPost h j vis topo vis' topo') :
    ∀ (l : List Nat) (vis topo vis' topo' : List Nat), DfsPreL h l vis topo →
      buildTopoL bt l (vis, topo) = some (vis', topo') →
      DfsPostL h l vis topo vis' topo' := by
  intro l
  induction l with
  | nil =>
    intro vis topo vis' topo' pre hok
    cases hok
    exact {
      ext := ⟨[], (List.append_nil topo).symm⟩
      inv := pre.inv
      visMono := fun k hk => hk
      pendEq := fun k hk hnk => ⟨hk, hnk⟩
      mem := fun j hj => absurd hj (List.not_mem_nil j)
      reach := fun k hk => Or.inl hk
      complete := fun j hj => absurd hj (List.not_mem_nil j)
      consumer := fun k hk => Or.inl hk }
  | cons j js ih =>
    intro vis topo vis' topo' pre hok
    unfold buildTopoL at hok
    cases h1 : bt j (vis, topo) with
    | none => rw [h1] at hok; exact Option.noConfusion hok
    | some st1 =>
      obtain ⟨vis1, topo1⟩ := st1
      rw [h1] at hok
      dsimp only at hok
      have pre_j : DfsPre h j vis topo :=
        ⟨pre.inv, fun k hk hnk => pre.pend k hk hnk j (List.mem_cons_self j js)⟩
      have post_j := hbt j vis topo vis1 topo1 pre_j h1
      have pre_js : DfsPreL h js vis1 topo1 := by
        refine ⟨post_j.inv, fun k hk hnk j' hj' => ?_⟩
        obtain ⟨hkv, hkt⟩ := post_j.pendEq k hk hnk
        exact pre.pend k hkv hkt j' (List.mem_cons_of_mem j hj')
      have post_js := ih vis1 topo1 vis' topo' pre_js hok
      obtain ⟨d1, hd1⟩ := post_j.ext
      obtain ⟨d2, hd2⟩ := post_js.ext
      have hsub1 : ∀ k ∈ topo1, k ∈ topo' := by
        intro k hk
        rw [hd2]
        exact List.mem_append_left _ hk
      refine {
        ext := ⟨d1 ++ d2, by rw [hd2, hd1, List.append_assoc]⟩
        inv := post_js.inv
        visMono := fun k hk => post_js.visMono k (post_j.visMono k hk)
        pendEq := fun k hk hnk => ?_
        mem := fun j' hj' => ?_
        reach := fun k hk => ?_
        complete := fun j' hj' k hr => ?_
        consumer := fun k hk => ?_ }
      · obtain ⟨hkv, hkt⟩ := post_js.pendEq k hk hnk
        exact post_j.pendEq k hkv hkt
      · rcases List.mem_cons.mp hj' with hj0 | hjs
        · subst hj0
          exact hsub1 j' post_j.mem
        · exact post_js.mem j' hjs
      · rcases post_js.reach k hk with hk1 | ⟨j', hj', hr⟩
        · rcases post_j.reach k hk1 with hk0 | hr
          · exact Or.inl hk0
          · exact Or.inr ⟨j, List.mem_cons_self j js, hr⟩
        · exact Or.inr ⟨j', List.mem_cons_of_mem j hj', hr⟩
      · rcases List.mem_cons.mp hj' with hj0 | hjs
        · subst hj0
          exact hsub1 k (post_j.complete k hr)
        · exact post_js.complete j' hjs k hr
      · rcases post_js.consumer k hk with hk1 | hkl | ⟨c, hcin, hcb⟩
        · rcases post_j.consumer k hk1 with hk0 | hkj | ⟨c, hcin, hcb⟩
          · exact Or.inl hk0
          · exact Or.inr (Or.inl (by rw [hkj]; exact List.mem_cons_self j js))
          · refine Or.inr (Or.inr ⟨c, hcin, ?_⟩)
            rw [hd2]
            exact before_append_right d2 hcb
        · exact Or.inr (Or.inl (List.mem_cons_of_mem j hkl))
        · exact Or.inr (Or.inr ⟨c, hcin, hcb⟩)

theorem dfs_main {h : Heap} (ho : orderedB h) :
    ∀ (fuel : Nat) (i : Nat) (vis topo vis' topo' : List Nat), DfsPre h i vis topo →
      buildTopo h fuel i (vis, topo) = some (vis', topo') →
      DfsPost h i vis topo vis' topo' := by
  intro fuel
  induction fuel with
  | zero => intro i vis topo vis' topo' _ hok; exact Option.noConfusion hok
  | succ fuel ih =>
    intro i vis topo vis' topo' pre hok
    unfold buildTopo at hok
    by_cases hv : i ∈ vis
    · rw [if_pos hv] at hok
      cases hok
      have hmem : i ∈ topo := by
        by_contra hcon
        exact Nat.lt_irrefl i (pre.pend i hv hcon)
      exact {
        ext := ⟨[], (List.append_nil topo).symm⟩
        inv := pre.inv
        visMono := fun k hk => hk
        pendEq := fun k hk hnk => ⟨hk, hnk⟩
        mem := hmem
        reach := fun k hk => Or.inl hk
        complete := fun k hr => complete_of_mem pre.inv hmem k hr
        consumer := fun k hk => Or.inl hk }
    · rw [if_neg hv] at hok
      cases hL : buildTopoL (buildTopo h fuel) (inputsOf h i) (i :: vis, topo) with
      | none => rw [hL] at hok; exact Option.noConfusion hok
      | some st1 =>
        obtain ⟨vis1, topo1⟩ := st1
        rw [hL] at hok
        dsimp only at hok
        have preL : DfsPreL h (inputsOf h i) (i :: vis) topo := by
          refine ⟨⟨fun k hk => List.mem_cons_of_mem i (pre.inv.sub k hk),
            pre.inv.nodup, pre.inv.ord⟩, fun k hk hnk j hj => ?_⟩
          rcases List.mem_cons.mp hk with hki | hkv
          · rw [hki]
            exact ordered_all ho i j hj
          · exact Nat.lt_trans (ordered_all ho i j hj) (pre.pend k hkv hnk)
        have postL := dfsL_main ho ih (inputsOf h i) (i :: vis) topo vis1 topo1 preL hL
        have hitopo : i ∉ topo := fun hc => hv (pre.inv.sub i hc)
        have hitopo1 : i ∉ topo1 := by
          intro hc
          rcases postL.reach i hc with hc0 | ⟨j, hj, hr⟩
          · exact hitopo hc0
          · exact Nat.lt_irrefl i
              (Nat.lt_of_le_of_lt (reaches_le ho hr) (ordered_all ho i j hj))
        have hivis1 : i ∈ vis1 := postL.visMono i (List.mem_cons_self i vis)
        obtain ⟨d1, hd1⟩ := postL.ext
        cases hok
        refine {
          ext := ⟨d1 ++ [i], by rw [hd1, List.append_assoc]⟩
          inv := ⟨fun k hk => ?_, ?_, fun l1 c l2 hsp j hj => ?_⟩
          visMono := fun k hk => postL.visMono k (List.mem_cons_of_mem i hk)
          pendEq := fun k hk hnk => ?_
          mem := List.mem_append_right topo1 (List.mem_singleton.mpr rfl)
          reach := fun k hk => ?_
          complete := fun k hr => ?_
          consumer := fun k hk => ?_ }
        · rcases List.mem_append.mp hk with hk1 | hk2
          · exact postL.inv.sub k hk1
          · rw [List.mem_singleton.mp hk2]
            exact hivis1
        · rw [List.nodup_append]
          exact ⟨postL.inv.nodup, List.nodup_singleton i,
            fun a ha hb => by rw [List.mem_singleton.mp hb] at ha; exact hitopo1 ha⟩
        · rcases snoc_split hsp.symm with ⟨hci, hl1, hl2⟩ | ⟨l2', hl2, ht⟩
          · subst hci
            rw [hl1]
            exact postL.mem j hj
          · exact postL.inv.ord l1 c l2' ht j hj
        · have hnk1 : k ∉ topo1 := fun hc => hnk (List.mem_append_left _ hc)
          have hki : k ≠ i := fun hc =>
            hnk (hc ▸ List.mem_append_right topo1 (List.mem_singleton.mpr rfl))
          obtain ⟨hkv, hkt⟩ := postL.pendEq k hk hnk1
          rcases List.mem_cons.mp hkv with hc | hc
          · exact absurd hc hki
          · exact ⟨hc, hkt⟩
        · rcases List.mem_append.mp hk with hk1 | hk2
          · rcases postL.reach k hk1 with hk0 | ⟨j, hj, hr⟩
            · exact Or.inl hk0
            · exact Or.inr (Reaches.step hj hr)
          · rw [List.mem_singleton.mp hk2]
            exact Or.inr (Reaches.refl i)
        · cases hr with
          | refl => exact List.mem_append_right topo1 (List.mem_singleton.mpr rfl)
          | step hj hr' =>
            exact List.mem_append_left _ (postL.complete _ hj k hr')
        · rcases List.mem_append.mp hk with hk1 | hk2
          · rcases postL.consumer k hk1 with hk0 | hkin | ⟨c, hcin, hcb⟩
            · exact Or.inl hk0
            · exact Or.inr (Or.inr ⟨i, hkin, before_snoc i hk1⟩)
            · exact Or.inr (Or.inr ⟨c, hcin, before_append_right [i] hcb⟩)
          · exact Or.inr (Or.inl (List.mem_singleton.mp hk2))

theorem lookupG_updateG_self (k v : Nat) :
    ∀ grads : List (Nat × Nat), lookupG (updateG grads k v) k = some v := by
  intro grads
  induction grads with
  | nil => simp [updateG, lookupG]
  | cons p rest ih =>
    obtain ⟨k', v'⟩ := p
    by_cases hkk : k' = k
    · simp [updateG, hkk, lookupG]
    · simp only [updateG, if_neg hkk, lookupG, if_neg hkk]
      exact ih

theorem lookupG_updateG_isSome {grads : List (Nat × Nat)} {x : Nat} (k v : Nat)
    (hx : (lookupG grads x).isSome) : (lookupG (updateG grads k v) x).isSome := by
  by_cases hxk : x = k
  · subst hxk
    rw [lookupG_updateG_self x v grads]
    rfl
  · rw [lookupG_updateG_ne hxk grads]
    exact hx

theorem accumulate_keys : ∀ (pairs : List (Nat × Nat)) (h : Heap)
    (grads : List (Nat × Nat)) (x : Nat),
    ((lookupG grads x).isSome ∨ x ∈ pairs.map Prod.fst) →
    (lookupG (accumulate h grads pairs).2 x).isSome := by
  intro pairs
  induction pairs with
  | nil =>
    intro h grads x hx
    rcases hx with hx | hx
    · exact hx
    · exact absurd hx (List.not_mem_nil x)
  | cons p rest ih =>
    intro h grads x hx
    obtain ⟨inp, g⟩ := p
    unfold accumulate
    cases lookupG grads inp with
    | some old =>
      dsimp only
      refine ih _ _ x ?_
      rcases hx with hx | hx
      · exact Or.inl (lookupG_updateG_isSome inp _ hx)
      · rcases List.mem_cons.mp hx with hxi | hxr
        · refine Or.inl ?_
          rw [hxi, lookupG_updateG_self inp _ grads]
          rfl
        · exact Or.inr hxr
    | none =>
      dsimp only
      refine ih _ _ x ?_
      rcases hx with hx | hx
      · exact Or.inl (lookupG_updateG_isSome inp g hx)
      · rcases List.mem_cons.mp hx with hxi | hxr
        · refine Or.inl ?_
          rw [hxi, lookupG_updateG_self inp g grads]
          rfl
        · exact Or.inr hxr

theorem backward_not_err {h : Heap} {i : Nat} (op : Op) (g : Nat)
    (hlen : (inputsOf h i).length = 2) (e : GErr) :
    backward h op g i ≠ .error e := by
  obtain ⟨a, b, hab⟩ := List.length_eq_two.mp hlen
  intro hc
  cases op with
  | add => exact Except.noConfusion hc
  | sub =>
    unfold backward at hc
    dsimp only at hc
    exact Except.noConfusion hc
  | mul =>
    unfold backward at hc
    rw [hab] at hc
    dsimp only at hc
    exact Except.noConfusion hc
  | div =>
    unfold backward at hc
    rw [hab] at hc
    dsimp only at hc
    exact Except.noConfusion hc

theorem backward_snd_len {h hB : Heap} {i g : Nat} {op : Op} {gs : List Nat}
    (hok : backward h op g i = .ok (hB, gs)) : gs.length = 2 := by
  unfold backward at hok
  cases op with
  | add => cases hok; rfl
  | sub =>
    dsimp only at hok
    cases hok
    rfl
  | mul =>
    cases h0 : (inputsOf h i)[0]? with
    | none => rw [h0] at hok; exact Except.noConfusion hok
    | some a' =>
      rw [h0] at hok
      cases h1 : (inputsOf h i)[1]? with
      | none => rw [h1] at hok; exact Except.noConfusion hok
      | some b' =>
        rw [h1] at hok
        dsimp only at hok
        cases hok
        rfl
  | div =>
    cases h0 : (inputsOf h i)[0]? with
    | none => rw [h0] at hok; exact Except.noConfusion hok
    | some a' =>
      rw [h0] at hok
      cases h1 : (inputsOf h i)[1]? with
      | none => rw [h1] at hok; exact Except.noConfusion hok
      | some b' =>
        rw [h1] at hok
        dsimp only at hok
        cases hok
        rfl

theorem revWalk_progress (hbase : Heap) (hwf : wfB hbase) (topo : List Nat) (out : Nat)
    (hnd : topo.Nodup)
    (hbound : ∀ n ∈ topo, n < hbase.length)
    (hcons : ∀ n ∈ topo, n = out ∨ ∃ c, n ∈ inputsOf hbase c ∧ Before topo n c) :
    ∀ (r done : List Nat) (h : Heap) (grads : List (Nat × Nat)),
      topo.reverse = done ++ r →
      HExt hbase h →
      (∀ c ∈ done, opOf hbase c ≠ none →
        ∀ j ∈ inputsOf hbase c, (lookupG grads j).isSome) →
      (lookupG grads out).isSome →
      ∃ h2 g2, revWalk h grads r = .ok (h2, g2) := by
  intro r
  induction r with
  | nil => intro done h grads _ _ _ _; exact ⟨h, grads, rfl⟩
  | cons n rest ih =>
    intro done h grads hsplit hxt hdone hseed
    have hn_topo : n ∈ topo := by
      refine List.mem_reverse.mp ?_
      rw [hsplit]
      exact List.mem_append_right done (List.mem_cons_self n rest)
    have hnb : n < hbase.length := hbound n hn_topo
    have hsplit' : topo.reverse = (done ++ [n]) ++ rest := by
      rw [hsplit, List.append_assoc]
      rfl
    unfold revWalk
    cases hop : opOf h n with
    | none =>
      refine ih (done ++ [n]) h grads hsplit' hxt (fun c hc hcop j hj => ?_) hseed
      rcases List.mem_append.mp hc with hcd | hcn
      · exact hdone c hcd hcop j hj
      · rw [List.mem_singleton.mp hcn] at hcop
        exact absurd ((opOf_ext hxt hnb).symm.trans hop) hcop
    | some op =>
      dsimp only
      have hkn : (lookupG grads n).isSome := by
        rcases hcons n hn_topo with hout | ⟨c, hcin, hcb⟩
        · rw [hout]
          exact hseed
        · have hsplit2 : topo = rest.reverse ++ n :: done.reverse := by
            have h0 : topo = (done ++ n :: rest).reverse := by
              rw [← hsplit, List.reverse_reverse]
            rw [h0]
            simp [List.reverse_append, List.reverse_cons, List.append_assoc]
          have hc_done : c ∈ done := List.mem_reverse.mp (before_to_done hnd hsplit2 hcb)
          have hc_topo : c ∈ topo := by
            refine List.mem_reverse.mp ?_
            rw [hsplit]
            exact List.mem_append_left _ hc_done
          have hcop : opOf hbase c ≠ none := by
            intro hcon
            have hemp : inputsOf hbase c = [] := (hwf c (hbound c hc_topo)).1 hcon
            rw [hemp] at hcin
            exact List.not_mem_nil n hcin
          exact hdone c hc_done hcop n hcin
      obtain ⟨g, hg⟩ := Option.isSome_iff_exists.mp hkn
      rw [hg]
      dsimp only
      have hopb : opOf hbase n = some op := (opOf_ext hxt hnb).symm.trans hop
      have hlen2 : (inputsOf h n).length = 2 := by
        rw [inputsOf_ext hxt hnb]
        refine (hwf n hnb).2 ?_
        rw [hopb]
        exact fun hc => Option.noConfusion hc
      obtain ⟨hB, gs, hbk⟩ : ∃ hB gs, backward h op g n = .ok (hB, gs) := by
        cases hq : backward h op g n with
        | error e => exact absurd hq (backward_not_err op g hlen2 e)
        | ok p =>
          obtain ⟨pa, pb⟩ := p
          exact ⟨pa, pb, rfl⟩
      obtain ⟨g1, g2x, hgs⟩ := List.length_eq_two.mp (backward_snd_len hbk)
      rw [hgs] at hbk
      rw [hbk]
      dsimp only
      have hxB : HExt hbase hB := hext_trans hxt (backward_ext hbk)
      have hinB : inputsOf hB n = inputsOf hbase n := inputsOf_ext hxB hnb
      have hkeys : ((inputsOf hB n).zip [g1, g2x]).map Prod.fst = inputsOf hB n := by
        refine List.map_fst_zip _ _ ?_
        rw [hinB, ← inputsOf_ext hxt hnb, hlen2]
        exact Nat.le_refl 2
      refine ih (done ++ [n]) _ _ hsplit'
        (hext_trans hxB (accumulate_ext _ _ _))
        (fun c hc hcop j hj => ?_) (accumulate_keys _ _ _ _ (Or.inl hseed))
      rcases List.mem_append.mp hc with hcd | hcn
      · exact accumulate_keys _ _ _ _ (Or.inl (hdone c hcd hcop j hj))
      · rw [List.mem_singleton.mp hcn] at hj
        refine accumulate_keys _ _ _ _ (Or.inr ?_)
        rw [hkeys, hinB]
        exact hj

theorem buildTopoL_isSome {bt : Nat → List Nat × List Nat → Option (List Nat × List Nat)} :
    ∀ (l : List Nat), (∀ j ∈ l, ∀ st, ∃ st', bt j st = some st') →
    ∀ st : List Nat × List Nat, ∃ st', buildTopoL bt l st = some st' := by
  intro l
  induction l with
  | nil => intro _ st; exact ⟨st, rfl⟩
  | cons j js ih =>
    intro hj st
    obtain ⟨st1, hst1⟩ := hj j (List.mem_cons_self j js) st
    obtain ⟨st2, hst2⟩ := ih (fun j' hj' => hj j' (List.mem_cons_of_mem j hj')) st1
    refine ⟨st2, ?_⟩
    unfold buildTopoL
    rw [hst1]
    exact hst2

theorem buildTopo_isSome {h : Heap} (ho : orderedB h) :
    ∀ (fuel i : Nat), i < fuel → ∀ st : List Nat × List Nat,
      ∃ st', buildTopo h fuel i st = some st' := by
  intro fuel
  induction fuel with
  | zero => intro i hi; exact absurd hi (Nat.not_lt_zero i)
  | succ fuel ih =>
    intro i hi st
    obtain ⟨vis, topo⟩ := st
    unfold buildTopo
    by_cases hv : i ∈ vis
    · rw [if_pos hv]
      exact ⟨(vis, topo), rfl⟩
    · rw [if_neg hv]
      have hlist : ∀ j ∈ inputsOf h i, ∀ st2, ∃ st2',
          buildTopo h fuel j st2 = some st2' := by
        intro j hj st2
        exact ih j (Nat.lt_of_lt_of_le (ordered_all ho i j hj) (Nat.le_of_lt_succ hi)) st2
      obtain ⟨st1, hst1⟩ := buildTopoL_isSome (inputsOf h i) hlist (i :: vis, topo)
      obtain ⟨vis1, topo1⟩ := st1
      rw [hst1]
      exact ⟨(vis1, topo1 ++ [i]), rfl⟩

theorem wfB_snoc_leaf {h : Heap} (hw : wfB h) (v : ℚ) :
    wfB (h ++ [⟨[], none, some v⟩]) := by
  intro i hi
  rcases Nat.lt_or_ge i h.length with hlt | hge
  · rw [inputsOf_ext (hext_app h _) hlt, opOf_ext (hext_app h _) hlt]
    exact hw i hlt
  · have hieq : i = h.length := by
      rw [List.length_append] at hi
      simp only [List.length_cons, List.length_nil] at hi
      omega
    subst hieq
    have hin : inputsOf (h ++ [(⟨[], none, some v⟩ : NodeData)]) h.length = [] := by
      unfold inputsOf
      rw [List.getElem?_concat_length]
    have hopn : opOf (h ++ [(⟨[], none, some v⟩ : NodeData)]) h.length = none := by
      unfold opOf
      rw [List.getElem?_concat_length]
    exact ⟨fun _ => hin, fun hne => absurd hopn hne⟩

/-- C5 (amended): over any heap respecting the construction-order discipline
(acyclic by construction) AND the specification's construction invariants
(a node without an operator has no inputs; a node with an operator has
exactly two), the depth-first post-order traversal appends exactly the nodes
reachable from the output, each exactly once, inputs before their consumer;
and `gradients` never fails the `grads[node]` mapping lookup.  The original
claim, quantified over every acyclic graph, is refuted by
`C5_counterexample`: without the construction invariants an operator node
can hide behind an operator-less consumer and the lookup raises `KeyError`. -/
theorem C5_topo_sound (h : Heap) (ho : orderedB h) (hwf : wfB h) :
    (∀ fuel out vis topo, buildTopo h fuel out ([], []) = some (vis, topo) →
      topo.Nodup ∧ (∀ k, k ∈ topo ↔ Reaches h out k) ∧
      (∀ l1 c l2, topo = l1 ++ c :: l2 → ∀ j ∈ inputsOf h c, j ∈ l1)) ∧
    (∀ out fuel, out < fuel →
      ∃ st, buildTopo h fuel out ([], []) = some st) ∧
    (∀ fuel out wrt, out < h.length →
      gradients fuel h out wrt ≠ .error .keyError) := by
  have hpre : ∀ (h' : Heap) (out : Nat), DfsPre h' out [] [] := by
    intro h' out
    refine ⟨⟨fun k hk => absurd hk (List.not_mem_nil k), List.nodup_nil,
      fun l1 c l2 heq => ?_⟩, fun k hk => absurd hk (List.not_mem_nil k)⟩
    have := congrArg List.length heq
    simp at this
    exact absurd this (by omega)
  refine ⟨?_, ?_, ?_⟩
  · intro fuel out vis topo hok
    have post := dfs_main ho fuel out [] [] vis topo (hpre h out) hok
    refine ⟨post.inv.nodup, fun k => ⟨fun hk => ?_, fun hr => post.complete k hr⟩,
      fun l1 c l2 hsp j hj => ?_⟩
    · rcases post.reach k hk with hk0 | hr
      · exact absurd hk0 (List.not_mem_nil k)
      · exact hr
    · exact post.inv.ord l1 c l2 hsp j hj
  · intro out fuel hfu
    exact buildTopo_isSome ho fuel out hfu ([], [])
  · intro fuel out wrt hout hcon
    unfold gradients at hcon
    simp only [leaf, mkNode] at hcon
    have ho1 : orderedB (h ++ [⟨[], none, some 1⟩]) := orderedB_snoc_leaf ho 1
    have hwf1 : wfB (h ++ [⟨[], none, some 1⟩]) := wfB_snoc_leaf hwf 1
    cases hbt : buildTopo (h ++ [⟨[], none, some 1⟩]) fuel out ([], []) with
    | none =>
      rw [hbt] at hcon
      exact GErr.noConfusion (Except.error.inj hcon)
    | some st =>
      obtain ⟨vis, topo⟩ := st
      rw [hbt] at hcon
      dsimp only at hcon
      have post := dfs_main ho1 fuel out [] [] vis topo (hpre _ out) hbt
      have hbound : ∀ n ∈ topo, n < (h ++ [(⟨[], none, some 1⟩ : NodeData)]).length := by
        intro n hn
        rcases post.reach n hn with hn0 | hr
        · exact absurd hn0 (List.not_mem_nil n)
        · have : n ≤ out := reaches_le ho1 hr
          rw [List.length_append]
          exact Nat.lt_of_le_of_lt this (Nat.lt_of_lt_of_le hout (Nat.le_add_right _ _))
      have hcons : ∀ n ∈ topo, n = out ∨
          ∃ c, n ∈ inputsOf (h ++ [⟨[], none, some 1⟩]) c ∧ Before topo n c := by
        intro n hn
        rcases post.consumer n hn with hn0 | hni | hc
        · exact absurd hn0 (List.not_mem_nil n)
        · exact Or.inl hni
        · exact Or.inr hc
      obtain ⟨h2, g2, hrw⟩ := revWalk_progress (h ++ [⟨[], none, some 1⟩]) hwf1 topo out
        post.inv.nodup hbound hcons topo.reverse [] (h ++ [⟨[], none, some 1⟩])
        [(out, h.length)] rfl (hext_refl _)
        (fun c hc => absurd hc (List.not_mem_nil c))
        (by simp [lookupG])
      rw [hrw] at hcon
      dsimp only at hcon
      exact Except.noConfusion hcon

/-- Witness for the amended C5: the two-node heap `wheap` is ordered and
well-formed, and `gradients` on its product node does not raise the mapping
lookup failure. -/
theorem C5_topo_sound_witness : gradients 10 wheap 1 [0] ≠ .error .keyError :=
  (C5_topo_sound wheap (by decide) (by decide)).2.2 10 1 [0] (by decide)

end Autodiff
